import Mathlib

/-!
Verification development for the cliptools subtitle segmentation and
alignment engine.  The Python sources (`src/utils/srt_parser.py`,
`src/utils/json_to_srt_sentences.py`, `src/utils/azure_spacy_segmenter.py`)
are shallowly embedded: strings are processed as `List Char`, Python floats
are modelled as exact rationals (`ℚ`), Python `round` as round-half-to-even,
and fallible Python code (exceptions) as `Option`-returning functions.
-/

/-! ## Basic character and string utilities (Python `str` primitives) -/

/-- Python whitespace test for `str.strip` / truthiness of `line.strip()`. -/
def isWS (c : Char) : Bool := c.isWhitespace

/-- Python `str.strip()` on a character list: drop leading and trailing
whitespace. -/
def stripL (cs : List Char) : List Char :=
  ((cs.dropWhile isWS).reverse.dropWhile isWS).reverse

/-- Python `str.strip()` on a `String`. -/
def pyStrip (s : String) : String := String.mk (stripL s.data)

/-- The numeric value of a decimal digit character. -/
def digitVal (c : Char) : Nat := c.toNat - 48

/-- Decimal digits of the tail of a Python integer literal, allowing a single
underscore between digits (Python `int("1_0") = 10`); the accumulator holds
the value of the digits already read. -/
def parseDigitsU : List Char → Nat → Option Nat
  | [], acc => some acc
  | c :: cs, acc =>
    if c = '_' then
      match cs with
      | c2 :: cs2 => if c2.isDigit then parseDigitsU cs2 (acc * 10 + digitVal c2) else none
      | [] => none
    else if c.isDigit then parseDigitsU cs (acc * 10 + digitVal c) else none

/-- Python `int(s)`: optional surrounding whitespace, optional sign, decimal
digits with single underscores between digits; `none` models `ValueError`. -/
def parseIntPy (s : List Char) : Option Int :=
  match stripL s with
  | [] => none
  | c :: cs =>
    if c = '+' then
      match cs with
      | c2 :: cs2 => if c2.isDigit then (parseDigitsU cs2 (digitVal c2)).map Int.ofNat else none
      | [] => none
    else if c = '-' then
      match cs with
      | c2 :: cs2 =>
        if c2.isDigit then (parseDigitsU cs2 (digitVal c2)).map (fun n => -(n : Int)) else none
      | [] => none
    else if c.isDigit then (parseDigitsU cs (digitVal c)).map Int.ofNat else none

/-- Python `s.split(sep)` for a single-character separator: all fields, empty
fields preserved.  Never returns `[]`. -/
def splitAll (sep : Char) : List Char → List (List Char)
  | [] => [[]]
  | c :: cs =>
    if c = sep then [] :: splitAll sep cs
    else
      match splitAll sep cs with
      | p :: ps => (c :: p) :: ps
      | [] => [[c]]

/-- Python `s.split(sep, 1)` for a single-character separator when the
separator occurs: the part before the first occurrence and everything after
it; `none` when the separator does not occur. -/
def splitFirst (sep : Char) : List Char → Option (List Char × List Char)
  | [] => none
  | c :: cs =>
    if c = sep then some ([], cs)
    else
      match splitFirst sep cs with
      | some (a, b) => some (c :: a, b)
      | none => none

/-- Python lexicographic `<` on strings (code-point order), as used by the
validator's `b.start > b.end` comparison. -/
def strLtCh : List Char → List Char → Bool
  | [], [] => false
  | [], _ :: _ => true
  | _ :: _, [] => false
  | a :: as, b :: bs => if a < b then true else if b < a then false else strLtCh as bs

/-- Decimal digits of a natural number, most significant first, prepended to
`acc` (the canonical rendering Python `str(int)` produces).  The first
argument is computation fuel (any amount above `n` is exact); it makes the
recursion structural so that concrete renderings evaluate by `decide`. -/
def natToStrGo : Nat → Nat → List Char → List Char
  | 0, _, acc => acc
  | fuel + 1, n, acc =>
    if n < 10 then Char.ofNat (48 + n) :: acc
    else natToStrGo fuel (n / 10) (Char.ofNat (48 + n % 10) :: acc)

/-- Canonical decimal rendering of a natural number (`str(n)` in Python). -/
def natToStr (n : Nat) : String := String.mk (natToStrGo (n + 1) n [])

/-- Canonical decimal rendering of an integer (`str(i)` in Python). -/
def intToStr (i : Int) : String :=
  if i < 0 then "-" ++ natToStr i.natAbs else natToStr i.toNat

/-- Python `round()` (banker's rounding, round-half-to-even) on an exact
rational. -/
def pyRound (q : ℚ) : ℤ :=
  if q - ⌊q⌋ < 1/2 then ⌊q⌋
  else if 1/2 < q - ⌊q⌋ then ⌊q⌋ + 1
  else if ⌊q⌋ % 2 = 0 then ⌊q⌋ else ⌊q⌋ + 1

/-- `f"{n:02d}"`: zero-pad to at least two digits. -/
def pad2 (n : Nat) : String := if n < 10 then "0" ++ natToStr n else natToStr n

/-- `f"{n:03d}"`: zero-pad to at least three digits. -/
def pad3 (n : Nat) : String :=
  if n < 10 then "00" ++ natToStr n
  else if n < 100 then "0" ++ natToStr n
  else natToStr n

/-! ## Timestamp codec

`to_seconds` and `format_ts` from `src/utils/json_to_srt_sentences.py`;
`_timestamp_to_seconds` and `_seconds_to_timestamp` from
`src/utils/srt_parser.py`. -/

/-- Python `float(num)` restricted to the strings reachable in `to_seconds`
(`num` only ever holds decimal digits and dots): succeeds when there is at
least one digit and at most one dot. -/
def parseFloat (cs : List Char) : Option ℚ :=
  match splitAll '.' cs with
  | [intPart] =>
    if intPart ≠ [] ∧ intPart.all Char.isDigit then
      some ((intPart.foldl (fun a c => a * 10 + digitVal c) 0 : Nat) : ℚ)
    else none
  | [intPart, fracPart] =>
    if (intPart ≠ [] ∨ fracPart ≠ []) ∧ intPart.all Char.isDigit ∧ fracPart.all Char.isDigit then
      some (((intPart.foldl (fun a c => a * 10 + digitVal c) 0 : Nat) : ℚ)
        + ((fracPart.foldl (fun a c => a * 10 + digitVal c) 0 : Nat) : ℚ) / (10 : ℚ) ^ fracPart.length)
    else none
  | _ => none

/-- The scanning loop of `to_seconds`: accumulate digit/dot runs into `num`,
and on a unit letter convert `num` with `float()` (an unparsable number is a
raised `ValueError`, modelled as `none`); unit letters other than `H`/`M`/`S`
discard the accumulated number.  A trailing `num` without a unit is dropped. -/
def toSecGo (h m s : ℚ) (num : List Char) : List Char → Option ℚ
  | [] => some (h * 3600 + m * 60 + s)
  | ch :: rest =>
    if ch.isDigit ∨ ch = '.' then toSecGo h m s (num ++ [ch]) rest
    else if ch = 'H' then (parseFloat num).bind fun v => toSecGo v m s [] rest
    else if ch = 'M' then (parseFloat num).bind fun v => toSecGo h v s [] rest
    else if ch = 'S' then (parseFloat num).bind fun v => toSecGo h m v [] rest
    else toSecGo h m s [] rest

/-- `to_seconds` (json_to_srt_sentences.py): convert an Azure `PT…` duration
to seconds; `none` models the raised `ValueError`s. -/
def to_seconds (pt : String) : Option ℚ :=
  match pt.data with
  | 'P' :: 'T' :: rest => toSecGo 0 0 0 [] rest
  | _ => none

/-- The field computation of `format_ts` before the millisecond-overflow
carry: hour/minute/second by floor division, milliseconds by rounding the
fractional part (for non-negative input). -/
def format_fieldsRaw (t : ℚ) : Nat × Nat × Nat × Nat :=
  let h := (⌊t / 3600⌋).toNat
  let m := (⌊(t - h * 3600) / 60⌋).toNat
  let s := (⌊t - h * 3600 - m * 60⌋).toNat
  let ms := (pyRound ((t - ⌊t⌋) * 1000)).toNat
  (h, m, s, ms)

/-- The millisecond-overflow carry of `format_ts`: `ms == 1000` carries into
seconds and cascades through minutes and hours. -/
def carryFields : Nat × Nat × Nat × Nat → Nat × Nat × Nat × Nat
  | (h, m, s, ms) =>
    if ms = 1000 then
      if s + 1 = 60 then
        if m + 1 = 60 then (h + 1, 0, 0, 0) else (h, m + 1, 0, 0)
      else (h, m, s + 1, 0)
    else (h, m, s, ms)

/-- `format_ts` (json_to_srt_sentences.py): format seconds as
`HH:MM:SS,mmm`, clamping negatives, rounding milliseconds and carrying a
1000 ms overflow through seconds, minutes and hours. -/
def format_ts (t0 : ℚ) : String :=
  let r := carryFields (format_fieldsRaw (if t0 < 0 then (0 : ℚ) else t0))
  pad2 r.1 ++ ":" ++ pad2 r.2.1 ++ ":" ++ pad2 r.2.2.1 ++ "," ++ pad3 r.2.2.2

/-- `_timestamp_to_seconds` (srt_parser.py): parse `HH:MM:SS,mmm` to seconds;
`none` models the exceptions (`split` unpack failures, `int()` failures). -/
def tsToSec (ts : String) : Option ℚ :=
  match splitAll ':' ts.data with
  | [hh, mm, rest] =>
    match splitFirst ',' rest with
    | some (ss, ms) =>
      match parseIntPy hh, parseIntPy mm, parseIntPy ss, parseIntPy ms with
      | some h, some m, some s, some msv => some (h * 3600 + m * 60 + s + msv / 1000)
      | _, _, _, _ => none
    | none => none
  | _ => none

/-- The field computation of `_seconds_to_timestamp`: negative input is
clamped to zero, the total rounded millisecond count is split by `divmod`
into hours, minutes, seconds and milliseconds. -/
def secToTs_fields (sec : ℚ) : Nat × Nat × Nat × Nat :=
  let totalMs := (pyRound ((if sec < 0 then (0 : ℚ) else sec) * 1000)).toNat
  (totalMs / 1000 / 60 / 60, totalMs / 1000 / 60 % 60, totalMs / 1000 % 60, totalMs % 1000)

/-- `_seconds_to_timestamp` (srt_parser.py): seconds back to `HH:MM:SS,mmm`,
clamping negatives to zero. -/
def secToTs (sec : ℚ) : String :=
  pad2 (secToTs_fields sec).1 ++ ":" ++ pad2 (secToTs_fields sec).2.1 ++ ":" ++
    pad2 (secToTs_fields sec).2.2.1 ++ "," ++ pad3 (secToTs_fields sec).2.2.2

/-! ## Block model (srt_parser.py `SRTBlock`) -/

/-- One SRT block: optional numeric index, raw start/end clock strings and
the payload text lines. -/
structure SRTBlock where
  index : Option Int
  start : String
  «end» : String
  lines : List String
deriving DecidableEq, Repr

/-- `SRTBlock.text`: the payload joined with newlines. -/
def joinNL : List String → String
  | [] => ""
  | [l] => l
  | l :: ls => l ++ "\n" ++ joinNL ls

def SRTBlock.text (b : SRTBlock) : String := joinNL b.lines

/-- The merged text of `SRTBlock.merge_with_next` with the default separator
`" "`: the stripped texts joined by a single space (the separator is dropped
when either stripped side is empty), stripped again. -/
def mergedText (b nxt : SRTBlock) : String :=
  pyStrip ((pyStrip b.text ++
    if pyStrip b.text ≠ "" ∧ pyStrip nxt.text ≠ "" then " " else "") ++ pyStrip nxt.text)

/-- `SRTBlock.merge_with_next` with the default separator `" "`: concatenate
stripped texts with a single space, extend the end time over the next block
(the index is left unchanged). -/
def SRTBlock.merge_with_next (b nxt : SRTBlock) : SRTBlock :=
  { b with lines := if mergedText b nxt ≠ "" then [mergedText b nxt] else [],
           «end» := nxt.«end» }

/-! ## Tolerant SRT parser (srt_parser.py `parse_srt_blocks`) -/

/-- Python `text.splitlines()` worker: `acc` holds the current line reversed;
a line ends at `\n`, `\r\n` or `\r`, and a final fragment without a line
break is still a line. -/
def pySplitlinesGo : List Char → List Char → List String
  | acc, [] => [String.mk acc.reverse]
  | acc, '\r' :: '\n' :: cs =>
    String.mk acc.reverse :: (if cs = [] then [] else pySplitlinesGo [] cs)
  | acc, '\n' :: cs =>
    String.mk acc.reverse :: (if cs = [] then [] else pySplitlinesGo [] cs)
  | acc, '\r' :: cs =>
    String.mk acc.reverse :: (if cs = [] then [] else pySplitlinesGo [] cs)
  | acc, c :: cs => pySplitlinesGo (c :: acc) cs

/-- Python `text.splitlines()` (no trailing empty line for a trailing line
break; the empty text has no lines). -/
def pySplitlines (s : String) : List String :=
  if s.data = [] then [] else pySplitlinesGo [] s.data

/-- Split a character list on every occurrence of the literal `-->`
(Python `line.split("-->")`), leftmost first, non-overlapping. -/
def splitArrowGo : List Char → List Char → List (List Char)
  | acc, [] => [acc.reverse]
  | acc, [c] => [(c :: acc).reverse]
  | acc, [c, c2] => [(c2 :: c :: acc).reverse]
  | acc, c :: c2 :: c3 :: cs =>
    if c = '-' ∧ c2 = '-' ∧ c3 = '>' then acc.reverse :: splitArrowGo [] cs
    else splitArrowGo (c :: acc) (c2 :: c3 :: cs)

/-- `"-->" not in cs`: no occurrence of the arrow separator. -/
def arrowFree : List Char → Bool
  | [] => true
  | [_] => true
  | [_, _] => true
  | c :: c2 :: c3 :: cs =>
    if c = '-' ∧ c2 = '-' ∧ c3 = '>' then false else arrowFree (c2 :: c3 :: cs)

/-- `_parse_timestamp_line` (srt_parser.py): a line containing exactly one
`-->` with non-blank text on both sides yields the stripped start/end clock
strings. -/
def parseTimestampLine (line : String) : Option (String × String) :=
  match splitArrowGo [] line.data with
  | [p1, p2] =>
    let s := stripL p1
    let e := stripL p2
    if s = [] ∨ e = [] then none else some (String.mk s, String.mk e)
  | _ => none

/-- The pre-timestamp scan of `parse_srt_blocks`: accumulate payload lines
(blank lines preserved as `""`, non-timestamp lines kept raw) until a line
parses as a timestamp line; returns the payload, the timestamp if found, and
the remaining lines. -/
def scanToTs : List String → List String × Option (String × String) × List String
  | [] => ([], none, [])
  | l :: ls =>
    if stripL l.data = [] then
      let r := scanToTs ls
      ("" :: r.1, r.2.1, r.2.2)
    else
      match parseTimestampLine (pyStrip l) with
      | some se => ([], some se, ls)
      | none =>
        let r := scanToTs ls
        (l :: r.1, r.2.1, r.2.2)

/-- Skip the single blank separator line after a block's payload, if present. -/
def dropOneBlank : List String → List String
  | [] => []
  | l :: ls => if stripL l.data = [] then ls else l :: ls

/-- One iteration of the `parse_srt_blocks` loop, starting at the first
non-blank line `first` with `ls` the lines after it: the parsed block (if a
timestamp was found) and the unconsumed lines. -/
def parseOne (first : String) (ls : List String) : Option SRTBlock × List String :=
  let f := pyStrip first
  match parseTimestampLine f with
  | some se =>
    let pay := ls.takeWhile (fun l => ¬ stripL l.data = [])
    let rest := ls.dropWhile (fun l => ¬ stripL l.data = [])
    (some ⟨none, se.1, se.2, pay⟩, dropOneBlank rest)
  | none =>
    let idxPay : Option Int × List String :=
      match parseIntPy f.data with
      | some idx => (some idx, [])
      | none => (none, [f])
    let r := scanToTs ls
    match r.2.1 with
    | none => (none, r.2.2)
    | some se =>
      let pay := r.2.2.takeWhile (fun l => ¬ stripL l.data = [])
      let rest := r.2.2.dropWhile (fun l => ¬ stripL l.data = [])
      (some ⟨idxPay.1, se.1, se.2, idxPay.2 ++ r.1 ++ pay⟩, dropOneBlank rest)

theorem scanToTs_rest_length (ls : List String) : (scanToTs ls).2.2.length ≤ ls.length := by
  induction ls with
  | nil => simp [scanToTs]
  | cons l ls ih =>
    simp only [scanToTs]
    by_cases h : stripL l.data = []
    · simpa [h] using Nat.le_succ_of_le ih
    · simp only [h]
      cases hp : parseTimestampLine (pyStrip l) with
      | some se => simp
      | none => simpa using Nat.le_succ_of_le ih

theorem dropOneBlank_length (ls : List String) : (dropOneBlank ls).length ≤ ls.length := by
  cases ls with
  | nil => simp [dropOneBlank]
  | cons l ls =>
    simp only [dropOneBlank]
    by_cases h : stripL l.data = [] <;> simp [h]

theorem parseOne_rest_length (first : String) (ls : List String) :
    (parseOne first ls).2.length ≤ ls.length := by
  simp only [parseOne]
  cases hp : parseTimestampLine (pyStrip first) with
  | some se =>
    simp only
    calc (dropOneBlank (ls.dropWhile (fun l => ¬ stripL l.data = []))).length
        ≤ (ls.dropWhile (fun l => ¬ stripL l.data = [])).length := dropOneBlank_length _
      _ ≤ ls.length := (List.dropWhile_sublist _).length_le
  | none =>
    simp only
    cases hq : (scanToTs ls).2.1 with
    | none => simpa using scanToTs_rest_length ls
    | some se =>
      simp only
      calc (dropOneBlank ((scanToTs ls).2.2.dropWhile (fun l => ¬ stripL l.data = []))).length
          ≤ ((scanToTs ls).2.2.dropWhile (fun l => ¬ stripL l.data = [])).length :=
            dropOneBlank_length _
        _ ≤ (scanToTs ls).2.2.length := (List.dropWhile_sublist _).length_le
        _ ≤ ls.length := scanToTs_rest_length ls

/-- The outer loop of `parse_srt_blocks` over the line list: skip blank
lines, parse one block, continue on the unconsumed lines.  The first
argument is computation fuel (each iteration consumes at least one line, so
any amount at or above the line count is exact, see `parseLoop_congr`); it
makes the recursion structural so concrete parses evaluate by `decide`. -/
def parseLoop : Nat → List String → List SRTBlock
  | 0, _ => []
  | fuel + 1, ls =>
    match ls.dropWhile (fun l => stripL l.data = []) with
    | [] => []
    | first :: rest =>
      match parseOne first rest with
      | (some b, rest2) => b :: parseLoop fuel rest2
      | (none, rest2) => parseLoop fuel rest2

/-- `parse_srt_blocks` (srt_parser.py). -/
def parse_srt_blocks (text : String) : List SRTBlock :=
  parseLoop (pySplitlines text).length (pySplitlines text)

/-! ## Serializer (srt_parser.py `blocks_to_text`) -/

/-- The lines one block contributes to the serialized output: optional index
line, the timestamp line, then the payload lines verbatim. -/
def blockCoreLines (b : SRTBlock) : List String :=
  (match b.index with | some i => [intToStr i] | none => []) ++
    (b.start ++ " --> " ++ b.«end») :: b.lines

/-- All serialized output lines: one blank separator line before every block
except the first. -/
def outLines : List SRTBlock → List String
  | [] => []
  | b :: bs => blockCoreLines b ++ (bs.map (fun b' => "" :: blockCoreLines b')).flatten

/-- `"\n".join(lines)`. -/
def joinLines : List String → String
  | [] => ""
  | [l] => l
  | l :: ls => l ++ "\n" ++ joinLines ls

/-- `blocks_to_text` (srt_parser.py): newline-joined output lines plus a
trailing newline when non-empty. -/
def blocks_to_text (bs : List SRTBlock) : String :=
  let out := outLines bs
  if out = [] then "" else joinLines out ++ "\n"

/-! ## Post-processing pipeline (srt_parser.py) -/

/-- The per-pair decision of `fill_short_gaps` (srt_parser.py): when
`0 < next.start - current.end < threshold` (seconds), extend `current.end`
to `next.start`; malformed timestamps leave the pair untouched. -/
def fillStep (threshold : ℚ) (b b2 : SRTBlock) : SRTBlock :=
  match tsToSec b.«end», tsToSec b2.start with
  | some curEnd, some nextStart =>
    if 0 < nextStart - curEnd ∧ nextStart - curEnd < threshold then
      { b with «end» := b2.start }
    else b
  | _, _ => b

/-- `fill_short_gaps` (srt_parser.py): apply `fillStep` to every consecutive
pair, the last block unchanged. -/
def fill_short_gaps (threshold : ℚ) : List SRTBlock → List SRTBlock
  | [] => []
  | [b] => [b]
  | b :: b2 :: rest => fillStep threshold b b2 :: fill_short_gaps threshold (b2 :: rest)

/-- `_target_duration_for_text` (srt_parser.py): step function from text
length to a target display duration. -/
def targetDurationForText (text : String) (baseMin : ℚ) : ℚ :=
  let stripped := stripL (text.data.map (fun c => if c = '\n' then ' ' else c))
  if stripped = [] then baseMin
  else
    let length := stripped.length
    if length ≤ 10 then baseMin
    else if length ≤ 25 then max baseMin (13/10)
    else if length ≤ 40 then max baseMin (17/10)
    else max baseMin 2

/-- One step of `enforce_min_duration` for block `b` with the (unmodified)
following block, if any: extend `b`'s end toward the target duration, never
past the next block's start and never shortening. -/
def enforceOne (minSeconds : ℚ) (b : SRTBlock) (next : Option SRTBlock) : SRTBlock :=
  match tsToSec b.start, tsToSec b.«end» with
  | some startSec, some endSec =>
    if endSec - startSec ≤ 0 then b
    else if endSec - startSec ≥ targetDurationForText b.text minSeconds then b
    else
      match next with
      | some nb =>
        if min (startSec + targetDurationForText b.text minSeconds)
            (match tsToSec nb.start with
             | some ns => ns
             | none => startSec + targetDurationForText b.text minSeconds) > endSec then
          { b with «end» := secToTs (min (startSec + targetDurationForText b.text minSeconds)
            (match tsToSec nb.start with
             | some ns => ns
             | none => startSec + targetDurationForText b.text minSeconds)) }
        else b
      | none => b
  | _, _ => b

/-- `enforce_min_duration` (srt_parser.py): each block is processed in order
against its original successor (only end times are ever modified, and the
last block is left unchanged). -/
def enforce_min_duration (minSeconds : ℚ) : List SRTBlock → List SRTBlock
  | [] => []
  | [b] => [enforceOne minSeconds b none]
  | b :: b2 :: rest => enforceOne minSeconds b (some b2) :: enforce_min_duration minSeconds (b2 :: rest)

/-- The walk of `merge_short_adjacent_blocks`: `prev` is the last block of
the output so far; a short, non-excepted, exactly-adjacent block is merged
into it. -/
def mergeShortGo (maxLen : Nat) (exc : List String) (prev : SRTBlock) :
    List SRTBlock → List SRTBlock
  | [] => [prev]
  | cur :: rest =>
    let curTxt := pyStrip cur.text
    if curTxt ≠ "" ∧ curTxt.length ≤ maxLen ∧ curTxt ∉ exc ∧ prev.«end» = cur.start then
      mergeShortGo maxLen exc (prev.merge_with_next cur) rest
    else prev :: mergeShortGo maxLen exc cur rest

/-- `merge_short_adjacent_blocks` (srt_parser.py); the exception set is the
stripped, non-blank members of `exceptions`. -/
def merge_short_adjacent_blocks (bs : List SRTBlock) (maxLen : Nat) (exceptions : List String) :
    List SRTBlock :=
  let exc := (exceptions.map pyStrip).filter (fun e => e ≠ "")
  match bs with
  | [] => []
  | [b] => [b]
  | b :: rest => mergeShortGo maxLen exc b rest

/-! ## Validator (srt_parser.py `validate_srt`) -/

/-- The `_looks_like_time` check inside `validate_srt`: exactly three
colon-separated fields, a comma in the last, and all four pieces non-empty
decimal-digit strings. -/
def looksLikeTime (t : String) : Bool :=
  match splitAll ':' t.data with
  | [hh, mm, rest] =>
    match splitFirst ',' rest with
    | some (ss, ms) =>
      (hh ≠ [] && hh.all Char.isDigit) && (mm ≠ [] && mm.all Char.isDigit) &&
        (ss ≠ [] && ss.all Char.isDigit) && (ms ≠ [] && ms.all Char.isDigit)
    | none => false
  | _ => false

/-- The per-block timestamp diagnostics of `validate_srt`, with 1-based
position `i`. -/
def tsErrorsGo : Nat → List SRTBlock → List String
  | _, [] => []
  | i, b :: rest =>
    (if ¬ (looksLikeTime b.start ∧ looksLikeTime b.«end») then
      ["Block " ++ natToStr i ++ ": timestamp does not look like HH:MM:SS,mmm -> '"
        ++ b.start ++ " --> " ++ b.«end» ++ "'"]
    else []) ++
    (if strLtCh b.«end».data b.start.data then
      ["Block " ++ natToStr i ++ ": start time '" ++ b.start ++ "' is after end time '"
        ++ b.«end» ++ "'."]
    else []) ++ tsErrorsGo (i + 1) rest

/-- The index-monotonicity diagnostics of `validate_srt`. -/
def idxErrorsGo : Option Int → Nat → List SRTBlock → List String
  | lastIdx, i, [] => let _ := lastIdx; let _ := i; []
  | lastIdx, i, b :: rest =>
    match b.index with
    | none => idxErrorsGo lastIdx (i + 1) rest
    | some ix =>
      (match lastIdx with
       | some li =>
         if ix < li then
           ["Block " ++ natToStr i ++ ": index " ++ intToStr ix
             ++ " is smaller than previous index " ++ intToStr li ++ "."]
         else []
       | none => []) ++ idxErrorsGo (some ix) (i + 1) rest

/-- `validate_srt` (srt_parser.py): re-parse and report structural problems
as data; the flag is true exactly when the diagnostic list is empty. -/
def validate_srt (text : String) : Bool × List String :=
  let blocks := parse_srt_blocks text
  if blocks = [] then (false, ["No valid SRT blocks found."])
  else
    let errors := tsErrorsGo 1 blocks ++ idxErrorsGo none 1 blocks
    (errors = [], errors)

/-! ## Word-to-segment aligner (json_to_srt_sentences.py) -/

/-- A recognized word with its time span (`Word` dataclass). -/
structure Word where
  text : String
  start : ℚ
  «end» : ℚ
deriving DecidableEq, Repr

/-- The midpoint of a word's time span. -/
def Word.mid (w : Word) : ℚ := (w.start + w.«end») / 2

/-- The word-collection loop of `align_sentences_to_words`: advance the
shared cursor while `words[w_idx].start < p_end + 0.001`, keeping the words
whose midpoint lies in `[p_start - 0.001, p_end + 0.001]`; returns the kept
words and the words left for later phrases. -/
def collectPhraseWords (pStart pEnd : ℚ) : List Word → List Word × List Word
  | [] => ([], [])
  | w :: ws =>
    if w.start < pEnd + 1/1000 then
      let r := collectPhraseWords pStart pEnd ws
      (if pStart - 1/1000 ≤ w.mid ∧ w.mid ≤ pEnd + 1/1000 then w :: r.1 else r.1, r.2)
    else ([], w :: ws)

/-- `split_display_into_sentences` worker: `buf` holds the current sentence
reversed; `.`, `?`, `!` terminate a sentence (kept), stripped sentences that
are empty are dropped, and a non-empty stripped tail is a final sentence. -/
def splitDisplayGo : List Char → List Char → List String
  | buf, [] =>
    let tail := stripL buf.reverse
    if tail = [] then [] else [String.mk tail]
  | buf, ch :: rest =>
    if ch = '.' ∨ ch = '?' ∨ ch = '!' then
      let sent := stripL (ch :: buf).reverse
      if sent = [] then splitDisplayGo [] rest else String.mk sent :: splitDisplayGo [] rest
    else splitDisplayGo (ch :: buf) rest

/-- `split_display_into_sentences` (json_to_srt_sentences.py). -/
def split_display_into_sentences (display : String) : List String :=
  splitDisplayGo [] display.data

/-- The proportional word-allocation loop shared by
`align_sentences_to_words` and `align_segments_to_words`: `pos` is the
cursor into `pw` (`word_pos`), `total` the total character count of all
fragments, and `n` the phrase's word count; each non-last non-empty fragment
takes `max 1 (round(len * n / total))` words from the front of the remaining
pool, the last takes all remaining words, and fragments that get no words
are skipped. -/
def allocCount (total n len : Nat) : Nat :=
  (max 1 (pyRound ((len : ℚ) / total * n))).toNat

def allocGo (pw : List Word) (total n : Nat) : List String → Nat → List (List Word × String)
  | [], _ => []
  | sent :: rest, pos =>
    if sent.length = 0 then allocGo pw total n rest pos
    else if rest = [] then
      if pw.drop pos = [] then [] else [(pw.drop pos, sent)]
    else
      if (pw.drop pos).take (allocCount total n sent.length) = [] then
        allocGo pw total n rest pos
      else
        ((pw.drop pos).take (allocCount total n sent.length), sent) ::
          allocGo pw total n rest
            (pos + ((pw.drop pos).take (allocCount total n sent.length)).length)

/-- The per-phrase body of `align_sentences_to_words`: the fragment/word
groups the allocation loop emits (empty when the sentence list is empty,
when there are no phrase words, or when the total character count is 0). -/
def phraseGroups (sents : List String) (pw : List Word) : List (List Word × String) :=
  if sents = [] then []
  else if pw = [] then []
  else
    let total := (sents.map String.length).sum
    if total = 0 then []
    else allocGo pw total pw.length sents 0

/-- Start time of an assigned word group (`seg_words[0].start`). -/
def segStart (seg : List Word) : ℚ :=
  match seg with
  | [] => 0
  | w :: _ => w.start

/-- End time of an assigned word group (`seg_words[-1].end`). -/
def segEnd (seg : List Word) : ℚ :=
  match seg.getLast? with
  | none => 0
  | some w => w.«end»

/-- The segments one phrase contributes in `align_sentences_to_words`:
whole-phrase fallback when no word midpoint fell in the window, otherwise
the proportionally allocated groups with word-derived times. -/
def alignPhrase (display : String) (pStart pEnd : ℚ) (pw : List Word) : List (ℚ × ℚ × String) :=
  let sents := split_display_into_sentences display
  if sents = [] then []
  else if pw = [] then sents.map (fun s => (pStart, pEnd, s))
  else (phraseGroups sents pw).map (fun g => (segStart g.1, segEnd g.1, g.2))

/-- The phrase loop of `align_sentences_to_words`, threading the shared
forward-only word cursor. -/
def alignGo : List Word → List (String × ℚ × ℚ) → List (ℚ × ℚ × String)
  | _, [] => []
  | ws, (display, pStart, pEnd) :: rest =>
    let c := collectPhraseWords pStart pEnd ws
    alignPhrase display pStart pEnd c.1 ++ alignGo c.2 rest

/-- `align_sentences_to_words` (json_to_srt_sentences.py). -/
def align_sentences_to_words (words : List Word) (phrases : List (String × ℚ × ℚ)) :
    List (ℚ × ℚ × String) :=
  if words = [] ∨ phrases = [] then [] else alignGo words phrases

/-- The word groups assigned across a whole alignment run, phrase by phrase
(the `seg_words` slices of `align_sentences_to_words`, in emission order). -/
def alignAssigned : List Word → List (String × ℚ × ℚ) → List (List Word)
  | _, [] => []
  | ws, (display, pStart, pEnd) :: rest =>
    let c := collectPhraseWords pStart pEnd ws
    (phraseGroups (split_display_into_sentences display) c.1).map Prod.fst
      ++ alignAssigned c.2 rest

/-- Failure predicate for the `to_seconds` scan: some `H`/`M`/`S` unit is
reached with an accumulated number `float()` cannot parse. -/
def hasBadComponent : List Char → List Char → Bool
  | _, [] => false
  | num, ch :: rest =>
    if ch.isDigit ∨ ch = '.' then hasBadComponent (num ++ [ch]) rest
    else if ch = 'H' ∨ ch = 'M' ∨ ch = 'S' then
      (parseFloat num).isNone || hasBadComponent [] rest
    else hasBadComponent [] rest

/-- Default block for positional (`getD`) indexing in theorem statements. -/
def defaultBlock : SRTBlock := ⟨none, "", "", []⟩

/-- Non-overlap of an adjacent block pair: whenever the end timestamp of the
first and the start timestamp of the second both parse, the end does not
exceed the start. -/
def SepOK (b b' : SRTBlock) : Prop :=
  ∀ e s', tsToSec b.«end» = some e → tsToSec b'.start = some s' → e ≤ s'

/-- A line free of line-break characters, as every line produced by
`splitlines` is. -/
def LineOK (l : String) : Prop := ∀ c ∈ l.data, c ≠ '\n' ∧ c ≠ '\r'

/-- The shape invariant of clock strings produced by `_parse_timestamp_line`:
stripped, nonempty, free of `-->` and of line breaks. -/
def GoodTs (s : String) : Prop :=
  stripL s.data = s.data ∧ s.data ≠ [] ∧ arrowFree s.data = true ∧ LineOK s

/-- The parser-output invariant of a block that serialization relies on. -/
def GoodBlock (b : SRTBlock) : Prop :=
  GoodTs b.start ∧ GoodTs b.«end» ∧ ∀ l ∈ b.lines, LineOK l

/-! ## Lemmas: proportional allocation (claims C1, C10) -/

theorem drop_length_take {α : Type} (l : List α) (c : Nat) :
    l.drop (l.take c).length = l.drop c := by
  rw [List.length_take]
  rcases le_or_lt c l.length with h | h
  · rw [Nat.min_eq_left h]
  · rw [Nat.min_eq_right h.le, List.drop_length, List.drop_eq_nil_of_le h.le]

theorem allocGo_sum (pw : List Word) (total n : Nat) (sents : List String) :
    ∀ pos : Nat, pos ≤ pw.length → sents ≠ [] → (∀ s ∈ sents, s.length ≠ 0) →
      ((allocGo pw total n sents pos).map (fun g => g.1.length)).sum = pw.length - pos := by
  induction sents with
  | nil => intro pos _ hne _; exact absurd rfl hne
  | cons sent rest ih =>
    intro pos hpos _ hall
    have hsl : ¬ sent.length = 0 := hall sent (List.mem_cons_self _ _)
    rw [allocGo, if_neg hsl]
    cases rest with
    | nil =>
      rw [if_pos rfl]
      by_cases hseg : pw.drop pos = []
      · rw [if_pos hseg]
        have hle : pw.length - pos = 0 := by
          have := congrArg List.length hseg
          simpa [List.length_drop] using this
        simp [hle]
      · rw [if_neg hseg]
        simp [List.length_drop]
    | cons s2 rest2 =>
      rw [if_neg (by simp : ¬ (s2 :: rest2 : List String) = [])]
      by_cases hseg : (pw.drop pos).take (allocCount total n sent.length) = []
      · rw [if_pos hseg]
        exact ih pos hpos (by simp) (fun s hs => hall s (List.mem_cons_of_mem _ hs))
      · rw [if_neg hseg]
        simp only [List.map_cons, List.sum_cons]
        have hlen : ((pw.drop pos).take (allocCount total n sent.length)).length
            ≤ pw.length - pos := by
          simp [List.length_take, List.length_drop]
        have hpos' :
            pos + ((pw.drop pos).take (allocCount total n sent.length)).length ≤ pw.length := by
          omega
        rw [ih _ hpos' (by simp) (fun s hs => hall s (List.mem_cons_of_mem _ hs))]
        omega

theorem allocGo_flatten_sublist (pw : List Word) (total n : Nat) (sents : List String) :
    ∀ pos : Nat, (((allocGo pw total n sents pos).map Prod.fst).flatten).Sublist (pw.drop pos) := by
  induction sents with
  | nil => intro pos; simp [allocGo]
  | cons sent rest ih =>
    intro pos
    by_cases hsl : sent.length = 0
    · rw [allocGo, if_pos hsl]; exact ih pos
    · rw [allocGo, if_neg hsl]
      cases rest with
      | nil =>
        rw [if_pos rfl]
        by_cases hseg : pw.drop pos = []
        · rw [if_pos hseg]; simp
        · rw [if_neg hseg]; simp
      | cons s2 rest2 =>
        rw [if_neg (by simp : ¬ (s2 :: rest2 : List String) = [])]
        by_cases hseg : (pw.drop pos).take (allocCount total n sent.length) = []
        · rw [if_pos hseg]; exact ih pos
        · rw [if_neg hseg]
          simp only [List.map_cons, List.flatten_cons]
          have hrest := ih (pos + ((pw.drop pos).take (allocCount total n sent.length)).length)
          rw [← List.drop_drop, drop_length_take] at hrest
          have h1 : (((pw.drop pos).take (allocCount total n sent.length)) ++
              ((allocGo pw total n (s2 :: rest2)
                (pos + ((pw.drop pos).take (allocCount total n sent.length)).length)).map
                  Prod.fst).flatten).Sublist
              (((pw.drop pos).take (allocCount total n sent.length)) ++
                (pw.drop pos).drop (allocCount total n sent.length)) :=
            List.Sublist.append (List.Sublist.refl _) hrest
          rw [List.take_append_drop] at h1
          exact h1

theorem phraseGroups_flatten_sublist (sents : List String) (pw : List Word) :
    (((phraseGroups sents pw).map Prod.fst).flatten).Sublist pw := by
  unfold phraseGroups
  by_cases h1 : sents = []
  · simp [h1]
  · rw [if_neg h1]
    by_cases h2 : pw = []
    · simp [h2]
    · rw [if_neg h2]
      by_cases h3 : (sents.map String.length).sum = 0
      · simp [h3]
      · rw [if_neg h3]
        simpa using allocGo_flatten_sublist pw (sents.map String.length).sum pw.length sents 0

theorem collectPhraseWords_split (pStart pEnd : ℚ) (ws : List Word) :
    ∃ consumed : List Word,
      ws = consumed ++ (collectPhraseWords pStart pEnd ws).2 ∧
      ((collectPhraseWords pStart pEnd ws).1).Sublist consumed ∧
      ∀ w ∈ (collectPhraseWords pStart pEnd ws).1,
        pStart - 1/1000 ≤ w.mid ∧ w.mid ≤ pEnd + 1/1000 := by
  induction ws with
  | nil => exact ⟨[], by simp [collectPhraseWords]⟩
  | cons w ws ih =>
    by_cases h : w.start < pEnd + 1/1000
    · have hc : collectPhraseWords pStart pEnd (w :: ws) =
          ((if pStart - 1/1000 ≤ w.mid ∧ w.mid ≤ pEnd + 1/1000 then
            w :: (collectPhraseWords pStart pEnd ws).1
          else (collectPhraseWords pStart pEnd ws).1),
            (collectPhraseWords pStart pEnd ws).2) := by
        rw [collectPhraseWords, if_pos h]
      obtain ⟨consumed, hsplit, hsub, hmem⟩ := ih
      refine ⟨w :: consumed, ?_, ?_, ?_⟩
      · rw [hc]
        simpa using hsplit
      · rw [hc]
        by_cases hm : pStart - 1/1000 ≤ w.mid ∧ w.mid ≤ pEnd + 1/1000
        · rw [if_pos hm]; exact hsub.cons₂ w
        · rw [if_neg hm]; exact hsub.cons w
      · intro x hx
        rw [hc] at hx
        by_cases hm : pStart - 1/1000 ≤ w.mid ∧ w.mid ≤ pEnd + 1/1000
        · rw [if_pos hm] at hx
          rcases List.mem_cons.mp hx with rfl | hx'
          · exact hm
          · exact hmem x hx'
        · rw [if_neg hm] at hx
          exact hmem x hx
    · have hc : collectPhraseWords pStart pEnd (w :: ws) = ([], w :: ws) := by
        rw [collectPhraseWords, if_neg h]
      exact ⟨[], by rw [hc]; rfl, by rw [hc], by rw [hc]; simp⟩

theorem alignAssigned_flatten_sublist (phrases : List (String × ℚ × ℚ)) :
    ∀ ws : List Word, ((alignAssigned ws phrases).flatten).Sublist ws := by
  induction phrases with
  | nil => intro ws; simp [alignAssigned]
  | cons p rest ih =>
    intro ws
    obtain ⟨display, pStart, pEnd⟩ := p
    obtain ⟨consumed, hsplit, hsub, _⟩ := collectPhraseWords_split pStart pEnd ws
    simp only [alignAssigned, List.flatten_append]
    conv_rhs => rw [hsplit]
    exact List.Sublist.append ((phraseGroups_flatten_sublist _ _).trans hsub) (ih _)

theorem alignAssigned_mem_window (phrases : List (String × ℚ × ℚ)) :
    ∀ (ws : List Word) (w : Word), w ∈ (alignAssigned ws phrases).flatten →
      ∃ p ∈ phrases, p.2.1 - 1/1000 ≤ w.mid ∧ w.mid ≤ p.2.2 + 1/1000 := by
  induction phrases with
  | nil => intro ws w hw; simp [alignAssigned] at hw
  | cons p rest ih =>
    intro ws w hw
    obtain ⟨display, pStart, pEnd⟩ := p
    simp only [alignAssigned, List.flatten_append] at hw
    rcases List.mem_append.mp hw with hw1 | hw2
    · obtain ⟨_, _, _, hmem⟩ := collectPhraseWords_split pStart pEnd ws
      have hsubl := phraseGroups_flatten_sublist (split_display_into_sentences display)
        (collectPhraseWords pStart pEnd ws).1
      exact ⟨(display, pStart, pEnd), List.mem_cons_self _ _, hmem w (hsubl.mem hw1)⟩
    · obtain ⟨q, hq, hcond⟩ := ih _ w hw2
      exact ⟨q, List.mem_cons_of_mem _ hq, hcond⟩

/-! ## Claim theorems C1 and C10 -/

/-- C1: for a phrase whose window holds N ≥ 1 words and whose segmenter
output is K ≥ 1 non-empty fragments, the proportional allocation
(`round(len_i/total*N)` with a minimum of 1 from the front of the pool for
each non-last fragment, the last taking all remaining words) assigns words
whose counts sum to exactly N. -/
theorem C1_proportional_allocation_conservation
    (sents : List String) (pw : List Word)
    (hK : sents ≠ []) (hfrag : ∀ s ∈ sents, 1 ≤ s.length) (hN : 1 ≤ pw.length) :
    ((phraseGroups sents pw).map (fun g => g.1.length)).sum = pw.length := by
  unfold phraseGroups
  rw [if_neg hK]
  rw [if_neg (by intro h; rw [h] at hN; simp at hN)]
  have htot : (sents.map String.length).sum ≠ 0 := by
    obtain ⟨s, hs⟩ := List.exists_mem_of_ne_nil sents hK
    intro h
    have h0 : s.length = 0 := by
      have := List.sum_eq_zero_iff.mp h
      exact this s.length (List.mem_map_of_mem _ hs)
    have := hfrag s hs
    omega
  rw [if_neg htot]
  simpa using allocGo_sum pw (sents.map String.length).sum pw.length sents 0 (by omega) hK
    (fun s hs => by have := hfrag s hs; omega)

/-- Witness for C1 at a concrete phrase: two fragments, three words. -/
theorem C1_witness :
    ((["Hi there.", "Go."] : List String) ≠ [] ∧
      (∀ s ∈ (["Hi there.", "Go."] : List String), 1 ≤ s.length) ∧
      1 ≤ ([⟨"hi", 0, 1⟩, ⟨"there", 1, 2⟩, ⟨"go", 2, 3⟩] : List Word).length) ∧
    ((phraseGroups ["Hi there.", "Go."]
        [⟨"hi", 0, 1⟩, ⟨"there", 1, 2⟩, ⟨"go", 2, 3⟩]).map (fun g => g.1.length)).sum = 3 :=
  ⟨⟨by decide, by decide, by decide⟩,
    C1_proportional_allocation_conservation _ _ (by decide) (by decide) (by decide)⟩

/-- C10: across one whole alignment run, every word is assigned to at most
one output segment (the concatenation of all assigned word groups is a
subsequence of the input word list: within a phrase the slices are disjoint,
and the shared forward-only cursor never re-consumes a word), and every
assigned word's midpoint lies in the (ε = 1 ms widened) window of some
phrase — so a word whose midpoint falls in no scanned window is assigned to
no segment. -/
theorem C10_words_assigned_at_most_once (words : List Word) (phrases : List (String × ℚ × ℚ)) :
    ((alignAssigned words phrases).flatten).Sublist words ∧
    ∀ w ∈ (alignAssigned words phrases).flatten,
      ∃ p ∈ phrases, p.2.1 - 1/1000 ≤ w.mid ∧ w.mid ≤ p.2.2 + 1/1000 :=
  ⟨alignAssigned_flatten_sublist phrases words,
    fun w hw => alignAssigned_mem_window phrases words w hw⟩

/-! ## Lemmas and claim C8: `to_seconds` failure behaviour -/

theorem toSecGo_none_iff (cs : List Char) :
    ∀ (num : List Char) (h m s : ℚ),
      (toSecGo h m s num cs = none ↔ hasBadComponent num cs = true) := by
  induction cs with
  | nil => intro num h m s; simp [toSecGo, hasBadComponent]
  | cons ch rest ih =>
    intro num h m s
    rw [toSecGo, hasBadComponent]
    by_cases h1 : ch.isDigit ∨ ch = '.'
    · rw [if_pos h1, if_pos h1]; exact ih _ _ _ _
    · rw [if_neg h1, if_neg h1]
      by_cases hH : ch = 'H'
      · rw [if_pos hH, if_pos (Or.inl hH)]
        cases hpf : parseFloat num with
        | none => simp
        | some v => simpa using ih [] v m s
      · rw [if_neg hH]
        by_cases hM : ch = 'M'
        · rw [if_pos hM, if_pos (Or.inr (Or.inl hM))]
          cases hpf : parseFloat num with
          | none => simp
          | some v => simpa using ih [] h v s
        · rw [if_neg hM]
          by_cases hS : ch = 'S'
          · rw [if_pos hS, if_pos (Or.inr (Or.inr hS))]
            cases hpf : parseFloat num with
            | none => simp
            | some v => simpa using ih [] h m v
          · rw [if_neg hS, if_neg (by simp [hH, hM, hS])]
            exact ih _ _ _ _

/-- Counterexample to C8 as stated: `"PTH"` begins with the prefix `PT`,
yet `to_seconds` fails on it (Python raises from `float("")`), so beginning
with `PT` does not guarantee success. -/
theorem C8_counterexample :
    ("PTH".data.take 2 = ['P', 'T']) ∧ to_seconds "PTH" = none := by
  constructor
  · decide
  · decide

theorem to_seconds_eq (pt : String) :
    to_seconds pt =
      if pt.data.take 2 = ['P', 'T'] then toSecGo 0 0 0 [] (pt.data.drop 2) else none := by
  unfold to_seconds
  split
  · rename_i rest heq
    rw [heq]
    simp
  · rename_i hne
    rw [if_neg ?_]
    intro hpt
    cases hcs : pt.data with
    | nil => rw [hcs] at hpt; simp at hpt
    | cons a t =>
      cases t with
      | nil => rw [hcs] at hpt; simp at hpt
      | cons b t2 =>
        rw [hcs] at hpt
        simp only [List.take] at hpt
        have h1 := List.cons.inj hpt
        have ha : a = 'P' := h1.1
        have hb : b = 'T' := (List.cons.inj h1.2).1
        exact hne t2 (by rw [hcs, ha, hb])

/-- C8 (amended): `to_seconds` fails exactly when the text does not begin
with `PT`, or when the scan reaches an `H`/`M`/`S` unit whose accumulated
digits-and-dots number is not parsable by `float()` (empty, or more than one
dot); a component with an unrecognized unit letter merely discards its
number, contributing 0, as the concrete instances show. -/
theorem C8_to_seconds_failure_characterization :
    (∀ pt : String, to_seconds pt = none ↔
      (pt.data.take 2 ≠ ['P', 'T'] ∨ hasBadComponent [] (pt.data.drop 2) = true)) ∧
    to_seconds "PT5X7S" = some 7 ∧ to_seconds "PT3M21.5S" = some (403/2) := by
  refine ⟨?_, ?_, ?_⟩
  · intro pt
    by_cases hpt : pt.data.take 2 = ['P', 'T']
    · rw [to_seconds_eq, if_pos hpt]
      simpa [hpt] using toSecGo_none_iff (pt.data.drop 2) [] 0 0 0
    · rw [to_seconds_eq, if_neg hpt]
      simp [hpt]
  · have h : to_seconds "PT5X7S" = some ((0 : ℚ) * 3600 + 0 * 60 + ((7 : ℕ) : ℚ)) := rfl
    rw [h]; norm_num
  · have h : to_seconds "PT3M21.5S" =
        some ((0 : ℚ) * 3600 + ((3 : ℕ) : ℚ) * 60
          + (((21 : ℕ) : ℚ) + ((5 : ℕ) : ℚ) / (10 : ℚ) ^ (1 : ℕ))) := rfl
    rw [h]; norm_num

/-! ## Lemmas and claims C4, C5: gap filling -/

theorem tsToSec_ofParts (ts : String) (hh mm rest ss ms : List Char) (vh vm vs vms : ℤ)
    (h1 : splitAll ':' ts.data = [hh, mm, rest])
    (h2 : splitFirst ',' rest = some (ss, ms))
    (h3 : parseIntPy hh = some vh) (h4 : parseIntPy mm = some vm)
    (h5 : parseIntPy ss = some vs) (h6 : parseIntPy ms = some vms) :
    tsToSec ts = some ((vh : ℚ) * 3600 + (vm : ℚ) * 60 + (vs : ℚ) + (vms : ℚ) / 1000) := by
  simp only [tsToSec, h1, h2, h3, h4, h5, h6]

theorem fillStep_start (θ : ℚ) (b b2 : SRTBlock) : (fillStep θ b b2).start = b.start := by
  unfold fillStep
  split
  · split <;> rfl
  · rfl

theorem fillStep_index (θ : ℚ) (b b2 : SRTBlock) : (fillStep θ b b2).index = b.index := by
  unfold fillStep
  split
  · split <;> rfl
  · rfl

theorem fillStep_lines (θ : ℚ) (b b2 : SRTBlock) : (fillStep θ b b2).lines = b.lines := by
  unfold fillStep
  split
  · split <;> rfl
  · rfl

theorem fillStep_eq_of (θ : ℚ) (b b2 : SRTBlock) (ce ns : ℚ)
    (hce : tsToSec b.«end» = some ce) (hns : tsToSec b2.start = some ns) :
    fillStep θ b b2 =
      if 0 < ns - ce ∧ ns - ce < θ then { b with «end» := b2.start } else b := by
  unfold fillStep
  rw [hce, hns]

theorem fillStep_eq_none_left (θ : ℚ) (b b2 : SRTBlock)
    (hce : tsToSec b.«end» = none) : fillStep θ b b2 = b := by
  unfold fillStep
  rw [hce]

theorem fillStep_eq_none_right (θ : ℚ) (b b2 : SRTBlock)
    (hns : tsToSec b2.start = none) : fillStep θ b b2 = b := by
  unfold fillStep
  cases hce : tsToSec b.«end» <;> rw [hns]

theorem fillStep_fixed (θ : ℚ) (b b2 b2' : SRTBlock) (hstart : b2'.start = b2.start) :
    fillStep θ (fillStep θ b b2) b2' = fillStep θ b b2 := by
  cases hce : tsToSec b.«end» with
  | none => rw [fillStep_eq_none_left θ b b2 hce, fillStep_eq_none_left θ b b2' hce]
  | some ce =>
    cases hns : tsToSec b2.start with
    | none =>
      rw [fillStep_eq_none_right θ b b2 hns,
        fillStep_eq_none_right θ b b2' (by rw [hstart]; exact hns)]
    | some ns =>
      have hns2 : tsToSec b2'.start = some ns := by rw [hstart]; exact hns
      rw [fillStep_eq_of θ b b2 ce ns hce hns]
      by_cases hcond : 0 < ns - ce ∧ ns - ce < θ
      · rw [if_pos hcond]
        have hce2 : tsToSec ({ b with «end» := b2.start } : SRTBlock).«end» = some ns := hns
        rw [fillStep_eq_of θ _ b2' ns ns hce2 hns2]
        rw [if_neg (by simp)]
      · rw [if_neg hcond]
        rw [fillStep_eq_of θ b b2' ce ns hce hns2, if_neg hcond]

theorem fill_short_gaps_getD (θ : ℚ) (bs : List SRTBlock) :
    (fill_short_gaps θ bs).length = bs.length ∧
    ∀ i : Nat, (fill_short_gaps θ bs).getD i defaultBlock =
      if i + 1 < bs.length then
        fillStep θ (bs.getD i defaultBlock) (bs.getD (i + 1) defaultBlock)
      else bs.getD i defaultBlock := by
  induction bs with
  | nil => exact ⟨rfl, fun i => by simp [fill_short_gaps]⟩
  | cons b rest ih =>
    cases rest with
    | nil =>
      refine ⟨rfl, fun i => ?_⟩
      match i with
      | 0 => simp [fill_short_gaps]
      | j + 1 => simp [fill_short_gaps, List.getD]
    | cons b2 rest2 =>
      refine ⟨by simpa [fill_short_gaps] using ih.1, fun i => ?_⟩
      match i with
      | 0 => simp [fill_short_gaps, List.getD]
      | j + 1 =>
        have := ih.2 j
        simp only [fill_short_gaps]
        simpa [List.getD] using this

/-- C4: with parseable timestamps, gap filling sets `current.end` to
`next.start` exactly when `0 < next.start - current.end < threshold` and
leaves the block untouched otherwise (blocks past the last pair, in
particular the last block, are unchanged); in particular blocks
`[0.0, 1.0]` and `[1.5, 2.0]` with the default threshold 0.8 become
`[0.0, 1.5]` and `[1.5, 2.0]`. -/
theorem C4_gap_filling_characterization :
    (∀ (bs : List SRTBlock) (θ : ℚ) (i : Nat) (ce ns : ℚ),
      i + 1 < bs.length →
      tsToSec (bs.getD i defaultBlock).«end» = some ce →
      tsToSec (bs.getD (i + 1) defaultBlock).start = some ns →
      (fill_short_gaps θ bs).getD i defaultBlock =
        (if 0 < ns - ce ∧ ns - ce < θ then
          { bs.getD i defaultBlock with «end» := (bs.getD (i + 1) defaultBlock).start }
        else bs.getD i defaultBlock)) ∧
    (∀ (bs : List SRTBlock) (θ : ℚ) (i : Nat), bs.length ≤ i + 1 →
      (fill_short_gaps θ bs).getD i defaultBlock = bs.getD i defaultBlock) ∧
    (∀ (bs : List SRTBlock) (θ : ℚ), (fill_short_gaps θ bs).length = bs.length) ∧
    fill_short_gaps (8/10)
        [⟨some 1, "00:00:00,000", "00:00:01,000", ["A"]⟩,
         ⟨some 2, "00:00:01,500", "00:00:02,000", ["B"]⟩] =
      [⟨some 1, "00:00:00,000", "00:00:01,500", ["A"]⟩,
       ⟨some 2, "00:00:01,500", "00:00:02,000", ["B"]⟩] := by
  refine ⟨?_, ?_, ?_, ?_⟩
  · intro bs θ i ce ns hlen hce hns
    rw [(fill_short_gaps_getD θ bs).2 i, if_pos hlen]
    unfold fillStep
    rw [hce, hns]
  · intro bs θ i hlen
    rw [(fill_short_gaps_getD θ bs).2 i, if_neg (by omega)]
  · intro bs θ
    exact (fill_short_gaps_getD θ bs).1
  · have hts1 : tsToSec "00:00:01,000" =
        some (((0 : ℤ) : ℚ) * 3600 + ((0 : ℤ) : ℚ) * 60 + ((1 : ℤ) : ℚ) + ((0 : ℤ) : ℚ) / 1000) :=
      tsToSec_ofParts _ ['0','0'] ['0','0'] ['0','1',',','0','0','0'] ['0','1'] ['0','0','0']
        0 0 1 0 (by decide) (by decide) (by decide) (by decide) (by decide) (by decide)
    have hts2 : tsToSec "00:00:01,500" =
        some (((0 : ℤ) : ℚ) * 3600 + ((0 : ℤ) : ℚ) * 60 + ((1 : ℤ) : ℚ) + ((500 : ℤ) : ℚ) / 1000) :=
      tsToSec_ofParts _ ['0','0'] ['0','0'] ['0','1',',','5','0','0'] ['0','1'] ['5','0','0']
        0 0 1 500 (by decide) (by decide) (by decide) (by decide) (by decide) (by decide)
    show fillStep (8/10) _ _ :: fill_short_gaps (8/10) [_] = _
    rw [fill_short_gaps]
    unfold fillStep
    rw [hts1, hts2]
    simp only
    rw [if_pos (by constructor <;> norm_num)]

/-- C5: gap filling is idempotent for a fixed threshold: a filled pair has
gap 0 and an unfilled pair is decided identically the second time. -/
theorem C5_fill_short_gaps_idempotent (θ : ℚ) (bs : List SRTBlock) :
    fill_short_gaps θ (fill_short_gaps θ bs) = fill_short_gaps θ bs := by
  induction bs with
  | nil => rfl
  | cons b rest ih =>
    cases rest with
    | nil => rfl
    | cons b2 rest2 =>
      cases rest2 with
      | nil =>
        show fill_short_gaps θ (fillStep θ b b2 :: fill_short_gaps θ [b2]) = _
        rw [show fill_short_gaps θ [b2] = [b2] from rfl]
        show fillStep θ (fillStep θ b b2) b2 :: fill_short_gaps θ [b2] = _
        rw [fillStep_fixed θ b b2 b2 rfl]
        rfl
      | cons b3 rest3 =>
        show fill_short_gaps θ (fillStep θ b b2 ::
          (fillStep θ b2 b3 :: fill_short_gaps θ (b3 :: rest3))) = _
        show fillStep θ (fillStep θ b b2) (fillStep θ b2 b3) ::
          fill_short_gaps θ (fillStep θ b2 b3 :: fill_short_gaps θ (b3 :: rest3)) = _
        rw [fillStep_fixed θ b b2 (fillStep θ b2 b3) (fillStep_start θ b2 b3)]
        have ih2 : fill_short_gaps θ (fillStep θ b2 b3 :: fill_short_gaps θ (b3 :: rest3)) =
            fillStep θ b2 b3 :: fill_short_gaps θ (b3 :: rest3) := ih
        rw [ih2]
        rfl

/-! ## Lemmas on `stripL` / `pyStrip` (claims C2, C6) -/

theorem head?_dropWhile_ws (xs : List Char) :
    ∀ c, ((xs.dropWhile isWS).head? = some c) → isWS c = false := by
  induction xs with
  | nil => intro c h; simp at h
  | cons x t ih =>
    intro c h
    rw [List.dropWhile_cons] at h
    by_cases hx : isWS x
    · rw [if_pos hx] at h
      exact ih c h
    · rw [if_neg hx] at h
      simp at h
      rw [← h]
      simpa using hx

theorem dropWhile_ws_idem (xs : List Char) :
    (xs.dropWhile isWS).dropWhile isWS = xs.dropWhile isWS := by
  cases h : xs.dropWhile isWS with
  | nil => rfl
  | cons c t =>
    have hc : isWS c = false := by
      apply head?_dropWhile_ws xs
      rw [h]; rfl
    rw [List.dropWhile_cons, hc]
    simp

theorem stripL_head?_ws (cs : List Char) :
    ∀ c, ((stripL cs).head? = some c) → isWS c = false := by
  intro c h
  unfold stripL at h
  rw [List.head?_reverse] at h
  obtain ⟨pre, hpre⟩ :
      ((cs.dropWhile isWS).reverse.dropWhile isWS).IsSuffix (cs.dropWhile isWS).reverse :=
    List.dropWhile_suffix _
  have hne : (cs.dropWhile isWS).reverse.dropWhile isWS ≠ [] := by
    intro hnil
    rw [hnil] at h
    simp at h
  have hgl : ((cs.dropWhile isWS).reverse).getLast? = some c := by
    rw [← hpre, List.getLast?_append_of_ne_nil _ hne]
    exact h
  rw [← List.head?_reverse, List.reverse_reverse] at hgl
  exact head?_dropWhile_ws _ c hgl

theorem stripL_getLast?_ws (cs : List Char) :
    ∀ c, ((stripL cs).getLast? = some c) → isWS c = false := by
  intro c h
  unfold stripL at h
  rw [← List.head?_reverse, List.reverse_reverse] at h
  exact head?_dropWhile_ws _ c h

theorem stripL_eq_self_of (cs : List Char)
    (h1 : ∀ c, cs.head? = some c → isWS c = false)
    (h2 : ∀ c, cs.getLast? = some c → isWS c = false) : stripL cs = cs := by
  cases hcs : cs with
  | nil => rfl
  | cons c t =>
    subst hcs
    unfold stripL
    have hd : (c :: t).dropWhile isWS = c :: t := by
      rw [List.dropWhile_cons, h1 c rfl]
      simp
    rw [hd]
    cases hr : (c :: t).reverse with
    | nil => simp at hr
    | cons d u =>
      have hdws : isWS d = false := by
        apply h2
        rw [← List.head?_reverse, hr]
        rfl
      rw [List.dropWhile_cons, hdws]
      simp only [Bool.false_eq_true, if_false]
      rw [← hr, List.reverse_reverse]

theorem stripL_idem (cs : List Char) : stripL (stripL cs) = stripL cs :=
  stripL_eq_self_of _ (stripL_head?_ws cs) (stripL_getLast?_ws cs)

theorem pyStrip_idem (s : String) : pyStrip (pyStrip s) = pyStrip s := by
  apply String.ext
  exact stripL_idem s.data

theorem pyStrip_data (s : String) : (pyStrip s).data = stripL s.data := rfl

theorem pyStrip_ne_empty_data {s : String} (h : pyStrip s ≠ "") : (pyStrip s).data ≠ [] := by
  intro hd
  exact h (String.ext hd)

theorem pyStrip_append_sep (l r : String) (hl : pyStrip l ≠ "") (hr : pyStrip r ≠ "") :
    pyStrip (pyStrip l ++ " " ++ pyStrip r) = pyStrip l ++ " " ++ pyStrip r := by
  apply String.ext
  have hdata : (pyStrip l ++ " " ++ pyStrip r).data =
      (stripL l.data ++ [' ']) ++ stripL r.data := by
    simp [String.data_append, pyStrip_data]
  rw [pyStrip_data, hdata]
  apply stripL_eq_self_of
  · intro c hc
    rw [List.append_assoc, List.head?_append_of_ne_nil _ (by
      simpa using pyStrip_ne_empty_data hl)] at hc
    exact stripL_head?_ws l.data c hc
  · intro c hc
    rw [List.getLast?_append_of_ne_nil _ (by
      simpa using pyStrip_ne_empty_data hr)] at hc
    exact stripL_getLast?_ws r.data c hc

/-! ## Claim C6: short-block merging -/

/-- Counterexample to C6 as stated: with `b1`'s payload `"Hello "` (trailing
space) and `b2`'s payload `"ok"`, all merge conditions hold, yet the merged
text is `"Hello ok"` (the code joins the two *stripped* texts), not the
trimmed concatenation `strip(text(b1) + " " + text(b2)) = "Hello  ok"`. -/
theorem C6_counterexample :
    (pyStrip (SRTBlock.text ⟨some 2, "00:00:01,000", "00:00:02,000", ["ok"]⟩) ≠ "" ∧
      (pyStrip (SRTBlock.text ⟨some 2, "00:00:01,000", "00:00:02,000", ["ok"]⟩)).length ≤ 3 ∧
      pyStrip (SRTBlock.text ⟨some 2, "00:00:01,000", "00:00:02,000", ["ok"]⟩) ∉
        (([] : List String).map pyStrip).filter (fun e => e ≠ "") ∧
      SRTBlock.«end» ⟨some 1, "00:00:00,000", "00:00:01,000", ["Hello "]⟩ =
        SRTBlock.start ⟨some 2, "00:00:01,000", "00:00:02,000", ["ok"]⟩) ∧
    (merge_short_adjacent_blocks
        [⟨some 1, "00:00:00,000", "00:00:01,000", ["Hello "]⟩,
         ⟨some 2, "00:00:01,000", "00:00:02,000", ["ok"]⟩] 3 []).map SRTBlock.text =
      ["Hello ok"] ∧
    pyStrip (SRTBlock.text ⟨some 1, "00:00:00,000", "00:00:01,000", ["Hello "]⟩ ++ " " ++
        SRTBlock.text ⟨some 2, "00:00:01,000", "00:00:02,000", ["ok"]⟩) = "Hello  ok" ∧
    ("Hello ok" : String) ≠ "Hello  ok" := by
  refine ⟨⟨?_, ?_, ?_, ?_⟩, ?_, ?_, ?_⟩ <;> decide

/-- C6 (amended): when short-block merging merges `b2` into `b1` (trimmed
text of `b2` non-empty, at most the threshold long, not excepted, and
`b2.start = b1.end` exactly), the merged block keeps `b1`'s start and index,
takes `b2`'s end, and its text is the *stripped* texts of `b1` and `b2`
joined by a single space (just the stripped text of `b2` when `b1`'s text
strips to empty). -/
theorem C6_merge_span_and_text (b1 b2 : SRTBlock) (maxLen : Nat) (exceptions : List String)
    (h1 : pyStrip b2.text ≠ "") (h2 : (pyStrip b2.text).length ≤ maxLen)
    (h3 : pyStrip b2.text ∉ (exceptions.map pyStrip).filter (fun e => e ≠ ""))
    (h4 : b1.«end» = b2.start) :
    merge_short_adjacent_blocks [b1, b2] maxLen exceptions =
      [{ b1 with
          «end» := b2.«end»,
          lines := [if pyStrip b1.text = "" then pyStrip b2.text
                    else pyStrip b1.text ++ " " ++ pyStrip b2.text] }] := by
  have hstep : merge_short_adjacent_blocks [b1, b2] maxLen exceptions =
      [b1.merge_with_next b2] := by
    unfold merge_short_adjacent_blocks
    simp only
    rw [mergeShortGo, if_pos ⟨h1, h2, h3, h4⟩]
    rfl
  rw [hstep]
  have hmt : mergedText b1 b2 =
      if pyStrip b1.text = "" then pyStrip b2.text
      else pyStrip b1.text ++ " " ++ pyStrip b2.text := by
    unfold mergedText
    by_cases hl : pyStrip b1.text = ""
    · rw [if_pos hl]
      rw [if_neg (by intro h; exact h.1 hl), hl]
      have : ((("" : String) ++ "") ++ pyStrip b2.text) = pyStrip b2.text := rfl
      rw [this, pyStrip_idem]
    · rw [if_neg hl, if_pos ⟨hl, h1⟩]
      exact pyStrip_append_sep b1.text b2.text hl h1
  have hne : mergedText b1 b2 ≠ "" := by
    rw [hmt]
    by_cases hl : pyStrip b1.text = ""
    · rwa [if_pos hl]
    · rw [if_neg hl]
      intro hcontra
      apply pyStrip_ne_empty_data h1
      have := congrArg String.data hcontra
      simp only [String.data_append] at this
      rcases List.append_eq_nil.mp this with ⟨h5, h6⟩
      exact h6
  unfold SRTBlock.merge_with_next
  rw [if_pos hne, hmt]

/-! ## Fuel stability for `parseLoop` and `natToStrGo` -/

theorem parseLoop_nil (f : Nat) : parseLoop f [] = [] := by
  cases f with
  | zero => rfl
  | succ g => rfl

theorem parseLoop_succ_nil (fuel : Nat) (ls : List String)
    (hd : ls.dropWhile (fun l => stripL l.data = []) = []) : parseLoop (fuel + 1) ls = [] := by
  rw [parseLoop, hd]

theorem parseLoop_succ_cons (fuel : Nat) (ls : List String) (first : String) (rest : List String)
    (hd : ls.dropWhile (fun l => stripL l.data = []) = first :: rest) :
    parseLoop (fuel + 1) ls =
      match parseOne first rest with
      | (some b, rest2) => b :: parseLoop fuel rest2
      | (none, rest2) => parseLoop fuel rest2 := by
  rw [parseLoop, hd]

theorem parseLoop_congr : ∀ (f1 f2 : Nat) (ls : List String),
    ls.length ≤ f1 → ls.length ≤ f2 → parseLoop f1 ls = parseLoop f2 ls := by
  intro f1
  induction f1 with
  | zero =>
    intro f2 ls h1 h2
    have hls : ls = [] := List.eq_nil_of_length_eq_zero (Nat.le_zero.mp h1)
    subst hls
    rw [parseLoop_nil, parseLoop_nil]
  | succ g ih =>
    intro f2 ls h1 h2
    cases f2 with
    | zero =>
      have hls : ls = [] := List.eq_nil_of_length_eq_zero (Nat.le_zero.mp h2)
      subst hls
      rw [parseLoop_nil, parseLoop_nil]
    | succ h =>
      cases hd : ls.dropWhile (fun l => stripL l.data = []) with
      | nil => rw [parseLoop_succ_nil g ls hd, parseLoop_succ_nil h ls hd]
      | cons first rest =>
        rw [parseLoop_succ_cons g ls first rest hd, parseLoop_succ_cons h ls first rest hd]
        have hdlen : rest.length + 1 ≤ ls.length := by
          have hsub := (List.dropWhile_sublist (l := ls) (fun l => stripL l.data = [])).length_le
          rw [hd] at hsub
          simpa using hsub
        cases hp : parseOne first rest with
        | mk ob rest2 =>
          have hr2 : rest2.length ≤ rest.length := by
            have hlen := parseOne_rest_length first rest
            rw [hp] at hlen
            exact hlen
          cases ob with
          | some b =>
            show b :: parseLoop g rest2 = b :: parseLoop h rest2
            exact congrArg (List.cons b) (ih h rest2 (by omega) (by omega))
          | none =>
            show parseLoop g rest2 = parseLoop h rest2
            exact ih h rest2 (by omega) (by omega)

theorem natToStrGo_congr : ∀ (m f1 f2 : Nat) (acc : List Char),
    m < f1 → m < f2 → natToStrGo f1 m acc = natToStrGo f2 m acc := by
  intro m
  induction m using Nat.strong_induction_on with
  | _ m ih =>
    intro f1 f2 acc h1 h2
    match f1, f2 with
    | g + 1, h + 1 =>
      rw [natToStrGo, natToStrGo]
      by_cases hm : m < 10
      · rw [if_pos hm, if_pos hm]
      · rw [if_neg hm, if_neg hm]
        have hd : m / 10 < m := Nat.div_lt_self (by omega) (by omega)
        exact ih (m / 10) hd g h _ (by omega) (by omega)

/-- Witness for C6 at a concrete pair of adjacent blocks. -/
theorem C6_witness :
    (pyStrip (SRTBlock.text ⟨some 2, "00:00:01,000", "00:00:02,000", ["ok"]⟩) ≠ "" ∧
      (pyStrip (SRTBlock.text ⟨some 2, "00:00:01,000", "00:00:02,000", ["ok"]⟩)).length ≤ 3 ∧
      pyStrip (SRTBlock.text ⟨some 2, "00:00:01,000", "00:00:02,000", ["ok"]⟩) ∉
        ((["OK"] : List String).map pyStrip).filter (fun e => e ≠ "") ∧
      SRTBlock.«end» ⟨some 1, "00:00:00,000", "00:00:01,000", ["Hello"]⟩ =
        SRTBlock.start ⟨some 2, "00:00:01,000", "00:00:02,000", ["ok"]⟩) ∧
    merge_short_adjacent_blocks
        [⟨some 1, "00:00:00,000", "00:00:01,000", ["Hello"]⟩,
         ⟨some 2, "00:00:01,000", "00:00:02,000", ["ok"]⟩] 3 ["OK"] =
      [{ (⟨some 1, "00:00:00,000", "00:00:01,000", ["Hello"]⟩ : SRTBlock) with
          «end» := SRTBlock.«end» ⟨some 2, "00:00:01,000", "00:00:02,000", ["ok"]⟩,
          lines := [if pyStrip (SRTBlock.text ⟨some 1, "00:00:00,000", "00:00:01,000", ["Hello"]⟩) = ""
                    then pyStrip (SRTBlock.text ⟨some 2, "00:00:01,000", "00:00:02,000", ["ok"]⟩)
                    else pyStrip (SRTBlock.text ⟨some 1, "00:00:00,000", "00:00:01,000", ["Hello"]⟩)
                      ++ " " ++ pyStrip (SRTBlock.text ⟨some 2, "00:00:01,000", "00:00:02,000", ["ok"]⟩)] }] :=
  ⟨⟨by decide, by decide, by decide, by decide⟩,
    C6_merge_span_and_text _ _ _ _ (by decide) (by decide) (by decide) (by decide)⟩

/-! ## Claim C7: the validator returns diagnostics as data -/

/-- C7: `validate_srt` is a total function returning a pass/fail flag and an
ordered diagnostic list — the flag is true exactly when the list is empty —
and on `"1\n00:00:05,000 --> 00:00:02,000\nBad\n"` it reports failure with
the start-after-end diagnostic. -/
theorem C7_validator_reports_as_data :
    (∀ text : String, ((validate_srt text).1 = true ↔ (validate_srt text).2 = [])) ∧
    validate_srt "1\n00:00:05,000 --> 00:00:02,000\nBad\n" =
      (false, ["Block 1: start time '00:00:05,000' is after end time '00:00:02,000'."]) := by
  constructor
  · intro text
    simp only [validate_srt]
    by_cases hb : parse_srt_blocks text = []
    · rw [if_pos hb]
      simp
    · rw [if_neg hb]
      simp
  · decide

/-! ## Lemmas on `pyRound` and digit rendering (claims C9, C3) -/

theorem pyRound_intCast (k : ℤ) : pyRound (k : ℚ) = k := by
  unfold pyRound
  rw [Int.floor_intCast]
  rw [if_pos (by norm_num)]

theorem pyRound_nonneg {x : ℚ} (hx : 0 ≤ x) : 0 ≤ pyRound x := by
  unfold pyRound
  have h0 : (0 : ℤ) ≤ ⌊x⌋ := Int.floor_nonneg.mpr hx
  split
  · exact h0
  · split
    · omega
    · split <;> omega

theorem pyRound_le_of_lt_int {x : ℚ} {n : ℤ} (h : x < n) : pyRound x ≤ n := by
  unfold pyRound
  have hfl : ⌊x⌋ < n := Int.floor_lt.mpr (by exact_mod_cast h)
  split
  · omega
  · split
    · omega
    · split <;> omega

theorem pyRound_le_of_lt_int' {x : ℚ} {n : ℤ} (h : x < n) (hn : 0 ≤ x) :
    (pyRound x).toNat ≤ n.toNat := by
  have h1 := pyRound_le_of_lt_int h
  have h2 := pyRound_nonneg hn
  omega

theorem pyRound_add_even (x : ℚ) (j : ℤ) :
    pyRound (x + 2 * (j : ℚ)) = pyRound x + 2 * j := by
  unfold pyRound
  have hcast : x + 2 * (j : ℚ) = x + ((2 * j : ℤ) : ℚ) := by push_cast; ring
  have hfl : ⌊x + 2 * (j : ℚ)⌋ = ⌊x⌋ + 2 * j := by
    rw [hcast, Int.floor_add_int]
  rw [hfl]
  have hfr : x + 2 * (j : ℚ) - ((⌊x⌋ + 2 * j : ℤ) : ℚ) = x - (⌊x⌋ : ℚ) := by
    push_cast
    ring
  have hpar : (⌊x⌋ + 2 * j) % 2 = ⌊x⌋ % 2 := by omega
  rw [hfr, hpar]
  split
  · rfl
  · split
    · omega
    · split <;> omega

theorem natToStrGo_lt10 (n : Nat) (acc : List Char) (h : n < 10) :
    natToStrGo (n + 1) n acc = Char.ofNat (48 + n) :: acc := by
  rw [natToStrGo, if_pos h]

theorem natToStrGo_lt100 (n : Nat) (acc : List Char) (h10 : 10 ≤ n) (h : n < 100) :
    natToStrGo (n + 1) n acc =
      Char.ofNat (48 + n / 10) :: Char.ofNat (48 + n % 10) :: acc := by
  rw [natToStrGo, if_neg (by omega)]
  have hc : natToStrGo n (n / 10) (Char.ofNat (48 + n % 10) :: acc) =
      natToStrGo (n / 10 + 1) (n / 10) (Char.ofNat (48 + n % 10) :: acc) := by
    have hdiv : n / 10 < n := Nat.div_lt_self (by omega) (by omega)
    exact natToStrGo_congr (n / 10) n (n / 10 + 1) _ hdiv (by omega)
  rw [hc, natToStrGo_lt10 _ _ (by omega)]

theorem natToStrGo_lt1000 (n : Nat) (acc : List Char) (h100 : 100 ≤ n) (h : n < 1000) :
    natToStrGo (n + 1) n acc =
      Char.ofNat (48 + n / 100) :: Char.ofNat (48 + n / 10 % 10) ::
        Char.ofNat (48 + n % 10) :: acc := by
  rw [natToStrGo, if_neg (by omega)]
  have hc : natToStrGo n (n / 10) (Char.ofNat (48 + n % 10) :: acc) =
      natToStrGo (n / 10 + 1) (n / 10) (Char.ofNat (48 + n % 10) :: acc) := by
    have hdiv : n / 10 < n := Nat.div_lt_self (by omega) (by omega)
    exact natToStrGo_congr (n / 10) n (n / 10 + 1) _ hdiv (by omega)
  rw [hc, natToStrGo_lt100 _ _ (by omega) (by omega)]
  have : n / 10 / 10 = n / 100 := by omega
  rw [this]

theorem natToStr_length_lt10 (n : Nat) (h : n < 10) : (natToStr n).length = 1 := by
  unfold natToStr
  rw [natToStrGo_lt10 _ _ h]
  rfl

theorem natToStr_length_lt100 (n : Nat) (h10 : 10 ≤ n) (h : n < 100) :
    (natToStr n).length = 2 := by
  unfold natToStr
  rw [natToStrGo_lt100 _ _ h10 h]
  rfl

theorem natToStr_length_lt1000 (n : Nat) (h100 : 100 ≤ n) (h : n < 1000) :
    (natToStr n).length = 3 := by
  unfold natToStr
  rw [natToStrGo_lt1000 _ _ h100 h]
  rfl

theorem pad2_length (n : Nat) (h : n < 100) : (pad2 n).length = 2 := by
  unfold pad2
  by_cases h10 : n < 10
  · rw [if_pos h10]
    rw [String.length_append, natToStr_length_lt10 n h10]
    rfl
  · rw [if_neg h10]
    exact natToStr_length_lt100 n (by omega) h

theorem pad3_length (n : Nat) (h : n < 1000) : (pad3 n).length = 3 := by
  unfold pad3
  by_cases h10 : n < 10
  · rw [if_pos h10, String.length_append, natToStr_length_lt10 n h10]
    rfl
  · rw [if_neg h10]
    by_cases h100 : n < 100
    · rw [if_pos h100, String.length_append, natToStr_length_lt100 n (by omega) h100]
      rfl
    · rw [if_neg h100]
      exact natToStr_length_lt1000 n (by omega) h

theorem carryFields_spec (A B S MS : Nat) (hB : B < 60) (hS : S < 60) (hMS : MS ≤ 1000) :
    (carryFields (A, B, S, MS)).2.1 < 60 ∧ (carryFields (A, B, S, MS)).2.2.1 < 60 ∧
    (carryFields (A, B, S, MS)).2.2.2 < 1000 ∧
    ((carryFields (A, B, S, MS)).1 * 3600 + (carryFields (A, B, S, MS)).2.1 * 60 +
        (carryFields (A, B, S, MS)).2.2.1) * 1000 + (carryFields (A, B, S, MS)).2.2.2 =
      (A * 3600 + B * 60 + S) * 1000 + MS := by
  rw [carryFields]
  by_cases h1 : MS = 1000
  · rw [if_pos h1]
    by_cases h2 : S + 1 = 60
    · rw [if_pos h2]
      by_cases h3 : B + 1 = 60
      · rw [if_pos h3]
        exact ⟨show (0:Nat) < 60 by omega, show (0:Nat) < 60 by omega,
          show (0:Nat) < 1000 by omega,
          show ((A + 1) * 3600 + 0 * 60 + 0) * 1000 + 0 = (A * 3600 + B * 60 + S) * 1000 + MS
            by omega⟩
      · rw [if_neg h3]
        exact ⟨show B + 1 < 60 by omega, show (0:Nat) < 60 by omega,
          show (0:Nat) < 1000 by omega,
          show (A * 3600 + (B + 1) * 60 + 0) * 1000 + 0 = (A * 3600 + B * 60 + S) * 1000 + MS
            by omega⟩
    · rw [if_neg h2]
      exact ⟨show B < 60 from hB, show S + 1 < 60 by omega, show (0:Nat) < 1000 by omega,
        show (A * 3600 + B * 60 + (S + 1)) * 1000 + 0 = (A * 3600 + B * 60 + S) * 1000 + MS
          by omega⟩
  · rw [if_neg h1]
    exact ⟨hB, hS, show MS < 1000 by omega, rfl⟩

theorem format_fieldsRaw_spec (t : ℚ) (ht : 0 ≤ t) :
    ∃ A B S MS : Nat, format_fieldsRaw t = (A, B, S, MS) ∧ B < 60 ∧ S < 60 ∧ MS ≤ 1000 ∧
      ((A * 3600 + B * 60 + S) * 1000 + MS : ℤ) = pyRound (t * 1000) := by
  refine ⟨(⌊t / 3600⌋).toNat,
    (⌊(t - (⌊t / 3600⌋).toNat * 3600) / 60⌋).toNat,
    (⌊t - (⌊t / 3600⌋).toNat * 3600 - (⌊(t - (⌊t / 3600⌋).toNat * 3600) / 60⌋).toNat * 60⌋).toNat,
    (pyRound ((t - ⌊t⌋) * 1000)).toNat, rfl, ?_, ?_, ?_, ?_⟩
  all_goals {
    have hA0 : (0 : ℤ) ≤ ⌊t / 3600⌋ := Int.floor_nonneg.mpr (by positivity)
    have hAc : (((⌊t / 3600⌋).toNat : ℕ) : ℚ) = ((⌊t / 3600⌋ : ℤ) : ℚ) := by
      exact_mod_cast congrArg (fun z : ℤ => (z : ℚ)) (Int.toNat_of_nonneg hA0)
    have hu1 : ((⌊t / 3600⌋ : ℤ) : ℚ) * 3600 ≤ t := by
      have := Int.floor_le (t / 3600)
      have h36 : (0 : ℚ) < 3600 := by norm_num
      calc ((⌊t / 3600⌋ : ℤ) : ℚ) * 3600 ≤ (t / 3600) * 3600 := by
            exact mul_le_mul_of_nonneg_right this (by norm_num)
        _ = t := by field_simp
    have hu2 : t < ((⌊t / 3600⌋ : ℤ) : ℚ) * 3600 + 3600 := by
      have := Int.lt_floor_add_one (t / 3600)
      have : t / 3600 * 3600 < (((⌊t / 3600⌋ : ℤ) : ℚ) + 1) * 3600 := by
        exact mul_lt_mul_of_pos_right this (by norm_num)
      calc t = t / 3600 * 3600 := by field_simp
        _ < (((⌊t / 3600⌋ : ℤ) : ℚ) + 1) * 3600 := this
        _ = ((⌊t / 3600⌋ : ℤ) : ℚ) * 3600 + 3600 := by ring
    set u : ℚ := t - (⌊t / 3600⌋).toNat * 3600 with hu
    have hu0 : 0 ≤ u := by rw [hu, hAc]; linarith
    have hu3600 : u < 3600 := by rw [hu, hAc]; linarith
    have hB0 : (0 : ℤ) ≤ ⌊u / 60⌋ := Int.floor_nonneg.mpr (by positivity)
    have hBc : (((⌊u / 60⌋).toNat : ℕ) : ℚ) = ((⌊u / 60⌋ : ℤ) : ℚ) := by
      exact_mod_cast congrArg (fun z : ℤ => (z : ℚ)) (Int.toNat_of_nonneg hB0)
    have hv1 : ((⌊u / 60⌋ : ℤ) : ℚ) * 60 ≤ u := by
      have := Int.floor_le (u / 60)
      calc ((⌊u / 60⌋ : ℤ) : ℚ) * 60 ≤ (u / 60) * 60 :=
            mul_le_mul_of_nonneg_right this (by norm_num)
        _ = u := by field_simp
    have hv2 : u < ((⌊u / 60⌋ : ℤ) : ℚ) * 60 + 60 := by
      have h1 := Int.lt_floor_add_one (u / 60)
      have h2 : u / 60 * 60 < (((⌊u / 60⌋ : ℤ) : ℚ) + 1) * 60 :=
        mul_lt_mul_of_pos_right h1 (by norm_num)
      calc u = u / 60 * 60 := by field_simp
        _ < (((⌊u / 60⌋ : ℤ) : ℚ) + 1) * 60 := h2
        _ = ((⌊u / 60⌋ : ℤ) : ℚ) * 60 + 60 := by ring
    have hBlt : ⌊u / 60⌋ < 60 := by
      rw [Int.floor_lt]
      push_cast
      rw [div_lt_iff₀ (by norm_num : (0:ℚ) < 60)]
      linarith
    set v : ℚ := u - (⌊u / 60⌋).toNat * 60 with hv
    have hv0 : 0 ≤ v := by rw [hv, hBc]; linarith
    have hv60 : v < 60 := by rw [hv, hBc]; linarith
    have hS0 : (0 : ℤ) ≤ ⌊v⌋ := Int.floor_nonneg.mpr hv0
    have hSlt : ⌊v⌋ < 60 := by
      rw [Int.floor_lt]
      exact_mod_cast hv60
    have hfrac0 : (0 : ℚ) ≤ (t - ⌊t⌋) * 1000 := by
      have := Int.floor_le t
      have h1 : (0:ℚ) ≤ t - ⌊t⌋ := by linarith
      positivity
    have hfrac1 : (t - ⌊t⌋) * 1000 < ((1000 : ℤ) : ℚ) := by
      have := Int.lt_floor_add_one t
      push_cast
      nlinarith
    have hMS0 : (0 : ℤ) ≤ pyRound ((t - ⌊t⌋) * 1000) := pyRound_nonneg hfrac0
    have hMSle : pyRound ((t - ⌊t⌋) * 1000) ≤ 1000 := pyRound_le_of_lt_int hfrac1
    have hsum : (⌊t / 3600⌋ * 3600 + ⌊u / 60⌋ * 60 + ⌊v⌋ : ℤ) = ⌊t⌋ := by
      have hving : v = t - ((⌊t / 3600⌋ * 3600 + ⌊u / 60⌋ * 60 : ℤ) : ℚ) := by
        rw [hv, hBc, hu, hAc]
        push_cast
        ring
      have := Int.floor_sub_int t (⌊t / 3600⌋ * 3600 + ⌊u / 60⌋ * 60)
      rw [← hving] at this
      omega
    have htot : ⌊t⌋ * 1000 + pyRound ((t - ⌊t⌋) * 1000) = pyRound (t * 1000) := by
      have h1 := pyRound_add_even ((t - ⌊t⌋) * 1000) (500 * ⌊t⌋)
      have h2 : (t - ⌊t⌋) * 1000 + 2 * ((500 * ⌊t⌋ : ℤ) : ℚ) = t * 1000 := by
        push_cast
        ring
      rw [h2] at h1
      omega
    omega
  }

theorem format_ts_spec (t : ℚ) :
    ∃ h m s ms : Nat, m < 60 ∧ s < 60 ∧ ms < 1000 ∧
      format_ts t = pad2 h ++ ":" ++ pad2 m ++ ":" ++ pad2 s ++ "," ++ pad3 ms ∧
      ((h * 3600 + m * 60 + s) * 1000 + ms : ℤ) = pyRound ((if t < 0 then 0 else t) * 1000) := by
  have ht0 : 0 ≤ (if t < 0 then (0 : ℚ) else t) := by
    by_cases h : t < 0
    · rw [if_pos h]
    · rw [if_neg h]
      exact le_of_not_lt h
  obtain ⟨A, B, S, MS, hraw, hB, hS, hMS, hval⟩ := format_fieldsRaw_spec _ ht0
  obtain ⟨hc1, hc2, hc3, hc4⟩ := carryFields_spec A B S MS hB hS hMS
  refine ⟨(carryFields (A, B, S, MS)).1, (carryFields (A, B, S, MS)).2.1,
    (carryFields (A, B, S, MS)).2.2.1, (carryFields (A, B, S, MS)).2.2.2, hc1, hc2, hc3, ?_, ?_⟩
  · show format_ts t = _
    unfold format_ts
    simp only []
    rw [hraw]
  · have hcast : (((carryFields (A, B, S, MS)).1 * 3600 + (carryFields (A, B, S, MS)).2.1 * 60 +
        (carryFields (A, B, S, MS)).2.2.1) * 1000 + (carryFields (A, B, S, MS)).2.2.2 : ℤ) =
        ((A * 3600 + B * 60 + S) * 1000 + MS : ℤ) := by
      exact_mod_cast congrArg (fun n : Nat => (n : ℤ)) hc4
    omega

theorem secToTs_spec (t : ℚ) :
    ∃ h m s ms : Nat, m < 60 ∧ s < 60 ∧ ms < 1000 ∧
      secToTs t = pad2 h ++ ":" ++ pad2 m ++ ":" ++ pad2 s ++ "," ++ pad3 ms ∧
      ((h * 3600 + m * 60 + s) * 1000 + ms : ℤ) = pyRound ((if t < 0 then 0 else t) * 1000) := by
  have ht0 : (0 : ℚ) ≤ (if t < 0 then (0 : ℚ) else t) * 1000 := by
    by_cases h : t < 0
    · rw [if_pos h]; norm_num
    · rw [if_neg h]
      have := le_of_not_lt h
      positivity
  have hpr0 : 0 ≤ pyRound ((if t < 0 then (0 : ℚ) else t) * 1000) := pyRound_nonneg ht0
  refine ⟨(pyRound ((if t < 0 then (0 : ℚ) else t) * 1000)).toNat / 1000 / 60 / 60,
    (pyRound ((if t < 0 then (0 : ℚ) else t) * 1000)).toNat / 1000 / 60 % 60,
    (pyRound ((if t < 0 then (0 : ℚ) else t) * 1000)).toNat / 1000 % 60,
    (pyRound ((if t < 0 then (0 : ℚ) else t) * 1000)).toNat % 1000,
    Nat.mod_lt _ (by omega), Nat.mod_lt _ (by omega), Nat.mod_lt _ (by omega), rfl, ?_⟩
  have hNint : (((pyRound ((if t < 0 then (0 : ℚ) else t) * 1000)).toNat : ℤ)) =
      pyRound ((if t < 0 then (0 : ℚ) else t) * 1000) := Int.toNat_of_nonneg hpr0
  omega

/-- Counterexample to C9 as stated: at 100 hours (`s = 360000`) both clock
formatters emit a three-digit hour field, so the output is not of the
two-digit-hour shape `HH:MM:SS,mmm` (whose length is always 12). -/
theorem C9_counterexample :
    format_ts 360000 = "100:00:00,000" ∧ secToTs 360000 = "100:00:00,000" ∧
    (∀ h m s ms : Nat, h < 100 → m < 60 → s < 60 → ms < 1000 →
      pad2 h ++ ":" ++ pad2 m ++ ":" ++ pad2 s ++ "," ++ pad3 ms ≠ "100:00:00,000") := by
  have hclamp : (if (360000 : ℚ) < 0 then (0 : ℚ) else 360000) = 360000 := by norm_num
  refine ⟨?_, ?_, ?_⟩
  · have hfr : format_fieldsRaw (360000 : ℚ) = (100, 0, 0, 0) := by
      unfold format_fieldsRaw
      simp only []
      norm_num [pyRound]
      refine ⟨rfl, ?_, ?_⟩
      · rw [show Int.toNat 100 = 100 from rfl]
        norm_num
      · rw [show Int.toNat 100 = 100 from rfl]
        norm_num
    show format_ts 360000 = _
    unfold format_ts
    try simp only []
    rw [hclamp, hfr]
    decide
  · have hf : secToTs_fields (360000 : ℚ) = (100, 0, 0, 0) := by
      unfold secToTs_fields
      try simp only []
      rw [hclamp]
      rw [show pyRound ((360000 : ℚ) * 1000) = 360000000 by unfold pyRound; norm_num]
      decide
    show secToTs 360000 = _
    unfold secToTs
    rw [hf]
    decide
  · intro h m s ms hh hm hs hms heq
    have hlen := congrArg String.length heq
    rw [String.length_append, String.length_append, String.length_append,
      String.length_append, String.length_append, String.length_append] at hlen
    rw [pad2_length h hh, pad2_length m (by omega), pad2_length s (by omega),
      pad3_length ms hms] at hlen
    revert hlen
    decide

/-- C9 (amended): both clock formatters produce
`pad2 h ++ ":" ++ pad2 m ++ ":" ++ pad2 s ++ "," ++ pad3 ms` with zero-padded
minute/second fields below 60 and a three-digit millisecond field below 1000
(the hour field is zero-padded to at least two digits but may exceed two),
where the fields encode exactly the round-half-to-even millisecond count of
the negative-clamped input — so milliseconds round to nearest and a 1000 ms
overflow carries through seconds, minutes and hours, as the concrete carry
instance 1.9996 s → `00:00:02,000` and the clamp instance −5 s →
`00:00:00,000` show. -/
theorem C9_clock_format_characterization :
    (∀ t : ℚ, ∃ h m s ms : Nat, m < 60 ∧ s < 60 ∧ ms < 1000 ∧
      format_ts t = pad2 h ++ ":" ++ pad2 m ++ ":" ++ pad2 s ++ "," ++ pad3 ms ∧
      ((h * 3600 + m * 60 + s) * 1000 + ms : ℤ) = pyRound ((if t < 0 then 0 else t) * 1000)) ∧
    (∀ t : ℚ, ∃ h m s ms : Nat, m < 60 ∧ s < 60 ∧ ms < 1000 ∧
      secToTs t = pad2 h ++ ":" ++ pad2 m ++ ":" ++ pad2 s ++ "," ++ pad3 ms ∧
      ((h * 3600 + m * 60 + s) * 1000 + ms : ℤ) = pyRound ((if t < 0 then 0 else t) * 1000)) ∧
    format_ts (4999/2500) = "00:00:02,000" ∧ secToTs (4999/2500) = "00:00:02,000" ∧
    format_ts (-5) = "00:00:00,000" ∧ secToTs (-5) = "00:00:00,000" := by
  refine ⟨format_ts_spec, secToTs_spec, ?_, ?_, ?_, ?_⟩
  · have hclamp : (if (4999/2500 : ℚ) < 0 then (0 : ℚ) else 4999/2500) = 4999/2500 := by
      norm_num
    have hfr : format_fieldsRaw (4999/2500 : ℚ) = (0, 0, 1, 1000) := by
      unfold format_fieldsRaw
      simp only []
      norm_num [pyRound]
      rfl
    show format_ts (4999/2500) = _
    unfold format_ts
    try simp only []
    rw [hclamp, hfr]
    decide
  · have hf : secToTs_fields (4999/2500 : ℚ) = (0, 0, 2, 0) := by
      unfold secToTs_fields
      simp only []
      rw [show (if (4999/2500 : ℚ) < 0 then (0 : ℚ) else 4999/2500) = 4999/2500 by norm_num]
      rw [show pyRound ((4999/2500 : ℚ) * 1000) = 2000 by unfold pyRound; norm_num]
      decide
    show secToTs (4999/2500) = _
    unfold secToTs
    rw [hf]
    decide
  · have hclamp : (if (-5 : ℚ) < 0 then (0 : ℚ) else -5) = 0 := by norm_num
    have hfr : format_fieldsRaw (0 : ℚ) = (0, 0, 0, 0) := by
      unfold format_fieldsRaw
      simp only []
      norm_num [pyRound]
    show format_ts (-5) = _
    unfold format_ts
    try simp only []
    rw [hclamp, hfr]
    decide
  · have hf : secToTs_fields (-5 : ℚ) = (0, 0, 0, 0) := by
      unfold secToTs_fields
      simp only []
      rw [show (if (-5 : ℚ) < 0 then (0 : ℚ) else -5) = 0 by norm_num]
      rw [show pyRound ((0 : ℚ) * 1000) = 0 by unfold pyRound; norm_num]
      decide
    show secToTs (-5) = _
    unfold secToTs
    rw [hf]
    decide

/-! ## Decimal rendering round-trips (claims C3, C2) -/

theorem digit_char_isDigit (d : Nat) (hd : d < 10) : (Char.ofNat (48 + d)).isDigit = true := by
  interval_cases d <;> decide

theorem digitVal_ofNat (d : Nat) (hd : d < 10) : digitVal (Char.ofNat (48 + d)) = d := by
  interval_cases d <;> decide

theorem digit_not_ws (c : Char) (h : c.isDigit = true) : isWS c = false := by
  unfold isWS Char.isWhitespace
  by_cases h1 : c = ' '
  · subst h1; exact absurd h (by decide)
  · by_cases h2 : c = '\t'
    · subst h2; exact absurd h (by decide)
    · by_cases h3 : c = '\r'
      · subst h3; exact absurd h (by decide)
      · by_cases h4 : c = '\n'
        · subst h4; exact absurd h (by decide)
        · simp [h1, h2, h3, h4]

theorem natToStrGo_append (fuel : Nat) :
    ∀ (n : Nat) (acc : List Char), natToStrGo fuel n acc = natToStrGo fuel n [] ++ acc := by
  induction fuel with
  | zero => intro n acc; rfl
  | succ f ih =>
    intro n acc
    rw [natToStrGo, natToStrGo]
    by_cases h : n < 10
    · rw [if_pos h, if_pos h]
      rfl
    · rw [if_neg h, if_neg h]
      rw [ih (n / 10) (Char.ofNat (48 + n % 10) :: acc),
        ih (n / 10) [Char.ofNat (48 + n % 10)]]
      simp

theorem natToStrGo_digits (fuel : Nat) :
    ∀ (n : Nat) (acc : List Char), (∀ c ∈ acc, c.isDigit = true) →
      ∀ c ∈ natToStrGo fuel n acc, c.isDigit = true := by
  induction fuel with
  | zero => intro n acc h; exact h
  | succ f ih =>
    intro n acc h c hc
    rw [natToStrGo] at hc
    by_cases hn : n < 10
    · rw [if_pos hn] at hc
      rcases List.mem_cons.mp hc with rfl | hc'
      · exact digit_char_isDigit n hn
      · exact h c hc'
    · rw [if_neg hn] at hc
      refine ih (n / 10) _ ?_ c hc
      intro c' hc'
      rcases List.mem_cons.mp hc' with rfl | hc''
      · exact digit_char_isDigit (n % 10) (Nat.mod_lt _ (by omega))
      · exact h c' hc''

theorem natToStrGo_ne_nil (fuel n : Nat) (hf : n < fuel) : natToStrGo fuel n [] ≠ [] := by
  cases fuel with
  | zero => omega
  | succ f =>
    rw [natToStrGo]
    by_cases h : n < 10
    · rw [if_pos h]; simp
    · rw [if_neg h]
      rw [natToStrGo_append]
      simp

theorem natToStrGo_foldl (n : Nat) :
    (natToStrGo (n + 1) n []).foldl (fun a c => a * 10 + digitVal c) 0 = n := by
  induction n using Nat.strong_induction_on with
  | _ n ih =>
    rw [natToStrGo]
    by_cases h : n < 10
    · rw [if_pos h]
      simp [digitVal_ofNat n h]
    · rw [if_neg h]
      have hd : n / 10 < n := Nat.div_lt_self (by omega) (by omega)
      have hcongr : natToStrGo n (n / 10) [Char.ofNat (48 + n % 10)] =
          natToStrGo (n / 10 + 1) (n / 10) [Char.ofNat (48 + n % 10)] :=
        natToStrGo_congr (n / 10) n (n / 10 + 1) _ hd (by omega)
      rw [hcongr, natToStrGo_append, List.foldl_append, ih (n / 10) hd]
      simp [digitVal_ofNat (n % 10) (Nat.mod_lt _ (by omega))]
      omega

theorem stripL_of_digits (cs : List Char) (h : ∀ c ∈ cs, c.isDigit = true) :
    stripL cs = cs := by
  apply stripL_eq_self_of
  · intro c hc
    cases cs with
    | nil => simp at hc
    | cons a t =>
      have ha : a = c := by simpa using hc
      subst ha
      exact digit_not_ws a (h a (List.mem_cons_self _ _))
  · intro c hc
    have hmem : c ∈ cs := by
      obtain ⟨hne, heq⟩ := List.mem_getLast?_eq_getLast (show c ∈ cs.getLast? from hc)
      rw [heq]
      exact List.getLast_mem hne
    exact digit_not_ws c (h c hmem)

theorem parseDigitsU_digits (cs : List Char) :
    ∀ acc : Nat, (∀ c ∈ cs, c.isDigit = true) →
      parseDigitsU cs acc = some (cs.foldl (fun a c => a * 10 + digitVal c) acc) := by
  induction cs with
  | nil => intro acc _; rfl
  | cons c cs' ih =>
    intro acc h
    have hcd : c.isDigit = true := h c (List.mem_cons_self _ _)
    have hc : ¬ c = '_' := by
      intro he
      subst he
      exact absurd hcd (by decide)
    rw [parseDigitsU.eq_def]
    simp only []
    rw [if_neg hc, if_pos hcd]
    rw [ih _ (fun x hx => h x (List.mem_cons_of_mem _ hx))]
    rfl

theorem natToStr_data (n : Nat) : (natToStr n).data = natToStrGo (n + 1) n [] := rfl

theorem natToStr_digits (n : Nat) : ∀ c ∈ (natToStr n).data, c.isDigit = true := by
  rw [natToStr_data]
  exact natToStrGo_digits (n + 1) n [] (by simp)

theorem parseIntPy_digits (cs : List Char) (hne : cs ≠ []) (h : ∀ c ∈ cs, c.isDigit = true) :
    parseIntPy cs = some ((cs.foldl (fun a c => a * 10 + digitVal c) 0 : Nat) : ℤ) := by
  rw [parseIntPy.eq_def, stripL_of_digits cs h]
  cases cs with
  | nil => exact absurd rfl hne
  | cons c cs' =>
    simp only []
    have hcd : c.isDigit = true := h c (List.mem_cons_self _ _)
    rw [if_neg (by intro he; subst he; exact absurd hcd (by decide)),
      if_neg (by intro he; subst he; exact absurd hcd (by decide)), if_pos hcd]
    rw [parseDigitsU_digits cs' (digitVal c) (fun x hx => h x (List.mem_cons_of_mem _ hx))]
    simp [List.foldl_cons]

theorem parseIntPy_natToStr (n : Nat) : parseIntPy (natToStr n).data = some (n : ℤ) := by
  rw [natToStr_data]
  rw [parseIntPy_digits _ (natToStrGo_ne_nil (n + 1) n (by omega))
    (natToStrGo_digits (n + 1) n [] (by simp))]
  rw [natToStrGo_foldl n]

theorem pad2_data_digits (n : Nat) : ∀ c ∈ (pad2 n).data, c.isDigit = true := by
  unfold pad2
  by_cases h : n < 10
  · rw [if_pos h]
    intro c hc
    rw [String.data_append] at hc
    rcases List.mem_append.mp hc with hc1 | hc2
    · have : c = '0' := by simpa using hc1
      subst this
      decide
    · exact natToStr_digits n c hc2
  · rw [if_neg h]
    exact natToStr_digits n

theorem pad3_data_digits (n : Nat) : ∀ c ∈ (pad3 n).data, c.isDigit = true := by
  unfold pad3
  by_cases h : n < 10
  · rw [if_pos h]
    intro c hc
    rw [String.data_append] at hc
    rcases List.mem_append.mp hc with hc1 | hc2
    · have : c = '0' := by
        rcases List.mem_cons.mp hc1 with h' | h'
        · exact h'
        · simpa using h'
      subst this
      decide
    · exact natToStr_digits n c hc2
  · rw [if_neg h]
    by_cases h2 : n < 100
    · rw [if_pos h2]
      intro c hc
      rw [String.data_append] at hc
      rcases List.mem_append.mp hc with hc1 | hc2
      · have : c = '0' := by simpa using hc1
        subst this
        decide
      · exact natToStr_digits n c hc2
    · rw [if_neg h2]
      exact natToStr_digits n

theorem parseIntPy_pad2 (n : Nat) : parseIntPy (pad2 n).data = some (n : ℤ) := by
  unfold pad2
  by_cases h : n < 10
  · rw [if_pos h]
    rw [String.data_append]
    have hdig : ∀ c ∈ ("0" : String).data ++ (natToStr n).data, c.isDigit = true := by
      intro c hc
      rcases List.mem_append.mp hc with hc1 | hc2
      · have : c = '0' := by simpa using hc1
        subst this
        decide
      · exact natToStr_digits n c hc2
    rw [parseIntPy_digits _ (by simp) hdig]
    rw [show ("0" : String).data ++ (natToStr n).data = '0' :: (natToStr n).data from rfl]
    rw [List.foldl_cons]
    rw [show (0 * 10 + digitVal '0') = 0 from rfl]
    rw [natToStr_data, natToStrGo_foldl n]
  · rw [if_neg h]
    exact parseIntPy_natToStr n

theorem parseIntPy_pad3 (n : Nat) : parseIntPy (pad3 n).data = some (n : ℤ) := by
  unfold pad3
  by_cases h : n < 10
  · rw [if_pos h]
    rw [String.data_append]
    have hdig : ∀ c ∈ ("00" : String).data ++ (natToStr n).data, c.isDigit = true := by
      intro c hc
      rcases List.mem_append.mp hc with hc1 | hc2
      · have : c = '0' := by
          rcases List.mem_cons.mp hc1 with h' | h'
          · exact h'
          · simpa using h'
        subst this
        decide
      · exact natToStr_digits n c hc2
    rw [parseIntPy_digits _ (by simp) hdig]
    rw [show ("00" : String).data ++ (natToStr n).data = '0' :: '0' :: (natToStr n).data from rfl]
    rw [List.foldl_cons, List.foldl_cons]
    rw [show (0 * 10 + digitVal '0') = 0 from rfl]
    rw [show (0 * 10 + digitVal '0') = 0 from rfl]
    rw [natToStr_data, natToStrGo_foldl n]
  · rw [if_neg h]
    by_cases h2 : n < 100
    · rw [if_pos h2]
      rw [String.data_append]
      have hdig : ∀ c ∈ ("0" : String).data ++ (natToStr n).data, c.isDigit = true := by
        intro c hc
        rcases List.mem_append.mp hc with hc1 | hc2
        · have : c = '0' := by simpa using hc1
          subst this
          decide
        · exact natToStr_digits n c hc2
      rw [parseIntPy_digits _ (by simp) hdig]
      rw [show ("0" : String).data ++ (natToStr n).data = '0' :: (natToStr n).data from rfl]
      rw [List.foldl_cons]
      rw [show (0 * 10 + digitVal '0') = 0 from rfl]
      rw [natToStr_data, natToStrGo_foldl n]
    · rw [if_neg h2]
      exact parseIntPy_natToStr n

theorem splitAll_no_sep (sep : Char) (cs : List Char) (h : sep ∉ cs) :
    splitAll sep cs = [cs] := by
  induction cs with
  | nil => rfl
  | cons c cs' ih =>
    rw [splitAll]
    rw [if_neg (by intro he; exact h (he ▸ List.mem_cons_self _ _))]
    rw [ih (fun hm => h (List.mem_cons_of_mem _ hm))]

theorem splitAll_append (sep : Char) (xs ys : List Char) (h : sep ∉ xs) :
    splitAll sep (xs ++ sep :: ys) = xs :: splitAll sep ys := by
  induction xs with
  | nil =>
    show splitAll sep (sep :: ys) = [] :: splitAll sep ys
    rw [splitAll, if_pos rfl]
  | cons x xs' ih =>
    show splitAll sep (x :: (xs' ++ sep :: ys)) = (x :: xs') :: splitAll sep ys
    rw [splitAll]
    rw [if_neg (by intro he; exact h (he ▸ List.mem_cons_self _ _))]
    rw [ih (fun hm => h (List.mem_cons_of_mem _ hm))]

theorem splitFirst_append (sep : Char) (xs ys : List Char) (h : sep ∉ xs) :
    splitFirst sep (xs ++ sep :: ys) = some (xs, ys) := by
  induction xs with
  | nil =>
    show splitFirst sep (sep :: ys) = some ([], ys)
    rw [splitFirst, if_pos rfl]
  | cons x xs' ih =>
    show splitFirst sep (x :: (xs' ++ sep :: ys)) = some (x :: xs', ys)
    rw [splitFirst]
    rw [if_neg (by intro he; exact h (he ▸ List.mem_cons_self _ _))]
    rw [ih (fun hm => h (List.mem_cons_of_mem _ hm))]

theorem digit_ne_colon {c : Char} (h : c.isDigit = true) : c ≠ ':' := by
  intro he
  subst he
  exact absurd h (by decide)

theorem digit_ne_comma {c : Char} (h : c.isDigit = true) : c ≠ ',' := by
  intro he
  subst he
  exact absurd h (by decide)

theorem tsToSec_secToTs (q : ℚ) :
    tsToSec (secToTs q) =
      some ((((pyRound ((if q < 0 then 0 else q) * 1000)).toNat : ℕ) : ℚ) / 1000) := by
  have hdata : (secToTs q).data =
      (pad2 (secToTs_fields q).1).data ++ ':' ::
        ((pad2 (secToTs_fields q).2.1).data ++ ':' ::
          ((pad2 (secToTs_fields q).2.2.1).data ++ ',' :: (pad3 (secToTs_fields q).2.2.2).data)) := by
    show (pad2 (secToTs_fields q).1 ++ ":" ++ pad2 (secToTs_fields q).2.1 ++ ":" ++
      pad2 (secToTs_fields q).2.2.1 ++ "," ++ pad3 (secToTs_fields q).2.2.2).data = _
    simp [String.data_append]
  have hno1 : ':' ∉ (pad2 (secToTs_fields q).1).data := by
    intro hm
    exact digit_ne_colon (pad2_data_digits _ _ hm) rfl
  have hno2 : ':' ∉ (pad2 (secToTs_fields q).2.1).data := by
    intro hm
    exact digit_ne_colon (pad2_data_digits _ _ hm) rfl
  have hno3 : ':' ∉ (pad2 (secToTs_fields q).2.2.1).data ++ ',' :: (pad3 (secToTs_fields q).2.2.2).data := by
    intro hm
    rcases List.mem_append.mp hm with hc | hc
    · exact digit_ne_colon (pad2_data_digits _ _ hc) rfl
    · rcases List.mem_cons.mp hc with hc' | hc'
      · exact absurd hc' (by decide)
      · exact digit_ne_colon (pad3_data_digits _ _ hc') rfl
  have hno4 : ',' ∉ (pad2 (secToTs_fields q).2.2.1).data := by
    intro hm
    exact digit_ne_comma (pad2_data_digits _ _ hm) rfl
  rw [tsToSec.eq_def, hdata]
  rw [splitAll_append ':' _ _ hno1, splitAll_append ':' _ _ hno2, splitAll_no_sep ':' _ hno3]
  simp only []
  rw [splitFirst_append ',' _ _ hno4]
  simp only []
  rw [parseIntPy_pad2, parseIntPy_pad2, parseIntPy_pad2, parseIntPy_pad3]
  simp only []
  congr 1
  have hfields : ((secToTs_fields q).1 * 3600 + (secToTs_fields q).2.1 * 60 +
      (secToTs_fields q).2.2.1) * 1000 + (secToTs_fields q).2.2.2 =
      (pyRound ((if q < 0 then 0 else q) * 1000)).toNat := by
    show ((pyRound ((if q < 0 then 0 else q) * 1000)).toNat / 1000 / 60 / 60 * 3600 +
      (pyRound ((if q < 0 then 0 else q) * 1000)).toNat / 1000 / 60 % 60 * 60 +
      (pyRound ((if q < 0 then 0 else q) * 1000)).toNat / 1000 % 60) * 1000 +
      (pyRound ((if q < 0 then 0 else q) * 1000)).toNat % 1000 = _
    omega
  have hq : ((((secToTs_fields q).1 * 3600 + (secToTs_fields q).2.1 * 60 +
      (secToTs_fields q).2.2.1) * 1000 + (secToTs_fields q).2.2.2 : ℕ) : ℚ) =
      (((pyRound ((if q < 0 then 0 else q) * 1000)).toNat : ℕ) : ℚ) := by
    exact_mod_cast congrArg (fun n : ℕ => (n : ℚ)) hfields
  push_cast at hq ⊢
  have hite : ((if q < 0 then (0:ℚ) else q) * 1000) = (if q < 0 then (0:ℚ) else q * 1000) := by
    by_cases h : q < 0 <;> simp [h]
  rw [hite] at hq
  field_simp
  linear_combination hq

/-! ## Minimum-duration enforcement (claim C3) -/

theorem pyRound_le_of_le_int {x : ℚ} {n : ℤ} (h : x ≤ (n : ℚ)) : pyRound x ≤ n := by
  have hfl : ⌊x⌋ ≤ n := by
    rw [show n = ⌊((n : ℤ) : ℚ)⌋ from (Int.floor_intCast n).symm]
    exact Int.floor_le_floor h
  rcases lt_or_eq_of_le hfl with hlt | heq
  · have hb : pyRound x ≤ ⌊x⌋ + 1 := by
      unfold pyRound
      split
      · omega
      · split
        · omega
        · split <;> omega
    omega
  · have hx : x = (n : ℚ) := le_antisymm h (by rw [← heq]; exact Int.floor_le x)
    unfold pyRound
    rw [if_pos]
    · exact hfl
    · rw [hx, Int.floor_intCast]
      norm_num

theorem int_comb_mul_1000 (a b c d : ℤ) :
    ∃ k : ℤ, (k : ℚ) = ((a : ℚ) * 3600 + (b : ℚ) * 60 + (c : ℚ) + (d : ℚ) / 1000) * 1000 :=
  ⟨a * 3600000 + b * 60000 + c * 1000 + d, by push_cast; ring⟩

theorem tsToSec_mul_1000_int (ts : String) (v : ℚ) (h : tsToSec ts = some v) :
    ∃ k : ℤ, (k : ℚ) = v * 1000 := by
  unfold tsToSec at h
  split at h
  · split at h
    · split at h
      · injection h with h'
        rw [← h']
        exact int_comb_mul_1000 _ _ _ _
      · exact absurd h (by simp)
    · exact absurd h (by simp)
  · exact absurd h (by simp)

theorem enforceOne_none (m : ℚ) (b : SRTBlock) : enforceOne m b none = b := by
  unfold enforceOne
  rcases tsToSec b.start with _ | sb <;> rcases tsToSec b.«end» with _ | eb
  · rfl
  · rfl
  · rfl
  · simp only []
    split
    · rfl
    · split <;> rfl

theorem enforceOne_start (m : ℚ) (b : SRTBlock) (nx : Option SRTBlock) :
    (enforceOne m b nx).start = b.start := by
  unfold enforceOne
  rcases tsToSec b.start with _ | sb <;> rcases tsToSec b.«end» with _ | eb
  · rfl
  · rfl
  · rfl
  · simp only []
    split
    · rfl
    · split
      · rfl
      · rcases nx with _ | nb
        · rfl
        · simp only []
          split <;> rfl

theorem enforceOne_skip (m : ℚ) (b : SRTBlock) (nx : Option SRTBlock) (sb eb : ℚ)
    (hsb : tsToSec b.start = some sb) (heb : tsToSec b.«end» = some eb)
    (hge : eb - sb ≥ targetDurationForText b.text m) :
    enforceOne m b nx = b := by
  unfold enforceOne
  rw [hsb, heb]
  simp only []
  split <;> rfl

theorem enforceOne_sep (m : ℚ) (b b2 : SRTBlock)
    (hnn : ∀ s, tsToSec b2.start = some s → 0 ≤ s)
    (hsep : SepOK b b2) :
    SepOK (enforceOne m b (some b2)) b2 := by
  rcases hstart : tsToSec b.start with _ | sb
  · have hb : enforceOne m b (some b2) = b := by
      unfold enforceOne
      rw [hstart]
    rw [hb]
    exact hsep
  · rcases hend : tsToSec b.«end» with _ | eb
    · have hb : enforceOne m b (some b2) = b := by
        unfold enforceOne
        rw [hstart, hend]
      rw [hb]
      exact hsep
    · rcases h2 : tsToSec b2.start with _ | s2
      · intro e s' _ hs'
        rw [h2] at hs'
        exact absurd hs' (by simp)
      · have hs2nn : 0 ≤ s2 := hnn s2 h2
        have hle : eb ≤ s2 := hsep eb s2 hend h2
        intro e s' he hs'
        rw [h2] at hs'
        injection hs' with hs'e
        subst hs'e
        unfold enforceOne at he
        rw [hstart, hend] at he
        simp only [] at he
        split at he
        · rw [hend] at he
          injection he with he'
          subst he'
          exact hle
        · split at he
          · rw [hend] at he
            injection he with he'
            subst he'
            exact hle
          · rw [h2] at he
            simp only [] at he
            split at he
            · rw [tsToSec_secToTs] at he
              injection he with he'
              subst he'
              obtain ⟨k, hk⟩ := tsToSec_mul_1000_int b2.start s2 h2
              have hcle : (if min (sb + targetDurationForText b.text m) s2 < 0 then (0 : ℚ)
                  else min (sb + targetDurationForText b.text m) s2) ≤ s2 := by
                split
                · exact hs2nn
                · exact min_le_right _ _
              have hc0 : (0 : ℚ) ≤ (if min (sb + targetDurationForText b.text m) s2 < 0 then (0 : ℚ)
                  else min (sb + targetDurationForText b.text m) s2) := by
                split
                · exact le_refl 0
                · rename_i hlt
                  exact le_of_not_lt hlt
              have hk' : (if min (sb + targetDurationForText b.text m) s2 < 0 then (0 : ℚ)
                  else min (sb + targetDurationForText b.text m) s2) * 1000 ≤ (k : ℚ) := by
                rw [hk]
                nlinarith
              have hround := pyRound_le_of_le_int hk'
              have hrnn : 0 ≤ pyRound ((if min (sb + targetDurationForText b.text m) s2 < 0 then (0 : ℚ)
                  else min (sb + targetDurationForText b.text m) s2) * 1000) :=
                pyRound_nonneg (by positivity)
              have htn : (((pyRound ((if min (sb + targetDurationForText b.text m) s2 < 0 then (0 : ℚ)
                  else min (sb + targetDurationForText b.text m) s2) * 1000)).toNat : ℤ)) ≤ k := by
                omega
              have hq : (((pyRound ((if min (sb + targetDurationForText b.text m) s2 < 0 then (0 : ℚ)
                  else min (sb + targetDurationForText b.text m) s2) * 1000)).toNat : ℕ) : ℚ) ≤ (k : ℚ) := by
                exact_mod_cast htn
              rw [hk] at hq
              linarith
            · rw [hend] at he
              injection he with he'
              subst he'
              exact hle

/-- C3 (corrected): minimum-duration enforcement preserves non-overlap but
does not create it.  For every input whose parseable start timestamps are
nonnegative and whose adjacent blocks are already non-overlapping (every
parseable end is at most the next parseable start), after
`enforce_min_duration` every adjacent pair is still non-overlapping. -/
theorem C3_enforce_preserves_nonoverlap (m : ℚ) (bs : List SRTBlock)
    (hnn : ∀ b ∈ bs, ∀ s, tsToSec b.start = some s → 0 ≤ s)
    (hchain : List.Chain' SepOK bs) :
    List.Chain' SepOK (enforce_min_duration m bs) := by
  revert hnn hchain
  induction bs with
  | nil => intro _ _; exact List.chain'_nil
  | cons b tl ih =>
    intro hnn hchain
    cases tl with
    | nil => exact List.chain'_singleton _
    | cons b2 rest =>
      have hnn2 : ∀ b' ∈ b2 :: rest, ∀ s, tsToSec b'.start = some s → 0 ≤ s :=
        fun b' hb' => hnn b' (List.mem_cons_of_mem _ hb')
      have hchain2 : List.Chain' SepOK (b2 :: rest) := (List.chain'_cons.mp hchain).2
      have hsep : SepOK b b2 := (List.chain'_cons.mp hchain).1
      have hsep0 : SepOK (enforceOne m b (some b2)) b2 :=
        enforceOne_sep m b b2 (hnn b2 (List.mem_cons_of_mem _ (List.mem_cons_self _ _))) hsep
      show List.Chain' SepOK (enforceOne m b (some b2) :: enforce_min_duration m (b2 :: rest))
      rw [List.chain'_cons']
      refine ⟨?_, ih hnn2 hchain2⟩
      intro y hy
      cases rest with
      | nil =>
        have hy' : y = enforceOne m b2 none := by
          rw [show enforce_min_duration m [b2] = [enforceOne m b2 none] from rfl] at hy
          exact (by simpa using hy : enforceOne m b2 none = y).symm
        subst hy'
        intro e s' he hs'
        rw [enforceOne_start] at hs'
        exact hsep0 e s' he hs'
      | cons b3 rest' =>
        have hy' : y = enforceOne m b2 (some b3) := by
          rw [show enforce_min_duration m (b2 :: b3 :: rest') =
              enforceOne m b2 (some b3) :: enforce_min_duration m (b3 :: rest') from rfl] at hy
          exact (by simpa using hy : enforceOne m b2 (some b3) = y).symm
        subst hy'
        intro e s' he hs'
        rw [enforceOne_start] at hs'
        exact hsep0 e s' he hs'

/-- C3 counterexample: enforcement does not create non-overlap.  The pair
below already overlaps (first end 5 s, second start 1 s); both blocks have
a positive duration at least their 1-second target, so
`enforce_min_duration` returns them unchanged and the first block's end
still exceeds the second block's start. -/
theorem C3_counterexample :
    enforce_min_duration 1
      [⟨some 1, "00:00:00,000", "00:00:05,000", ["Hello"]⟩,
       ⟨some 2, "00:00:01,000", "00:00:06,000", ["World"]⟩] =
      [⟨some 1, "00:00:00,000", "00:00:05,000", ["Hello"]⟩,
       ⟨some 2, "00:00:01,000", "00:00:06,000", ["World"]⟩] ∧
    tsToSec "00:00:05,000" = some 5 ∧ tsToSec "00:00:01,000" = some 1 ∧
    ¬ ((5 : ℚ) ≤ 1) := by
  have h0 : tsToSec "00:00:00,000" =
      some (((0 : ℤ) : ℚ) * 3600 + ((0 : ℤ) : ℚ) * 60 + ((0 : ℤ) : ℚ) + ((0 : ℤ) : ℚ) / 1000) :=
    tsToSec_ofParts _ ['0','0'] ['0','0'] ['0','0',',','0','0','0'] ['0','0'] ['0','0','0']
      0 0 0 0 (by decide) (by decide) (by decide) (by decide) (by decide) (by decide)
  have h5 : tsToSec "00:00:05,000" =
      some (((0 : ℤ) : ℚ) * 3600 + ((0 : ℤ) : ℚ) * 60 + ((5 : ℤ) : ℚ) + ((0 : ℤ) : ℚ) / 1000) :=
    tsToSec_ofParts _ ['0','0'] ['0','0'] ['0','5',',','0','0','0'] ['0','5'] ['0','0','0']
      0 0 5 0 (by decide) (by decide) (by decide) (by decide) (by decide) (by decide)
  have h1 : tsToSec "00:00:01,000" =
      some (((0 : ℤ) : ℚ) * 3600 + ((0 : ℤ) : ℚ) * 60 + ((1 : ℤ) : ℚ) + ((0 : ℤ) : ℚ) / 1000) :=
    tsToSec_ofParts _ ['0','0'] ['0','0'] ['0','1',',','0','0','0'] ['0','1'] ['0','0','0']
      0 0 1 0 (by decide) (by decide) (by decide) (by decide) (by decide) (by decide)
  have h0' : tsToSec "00:00:00,000" = some 0 := by rw [h0]; norm_num
  have h5' : tsToSec "00:00:05,000" = some 5 := by rw [h5]; norm_num
  have h1' : tsToSec "00:00:01,000" = some 1 := by rw [h1]; norm_num
  refine ⟨?_, h5', h1', by norm_num⟩
  show enforceOne 1 ⟨some 1, "00:00:00,000", "00:00:05,000", ["Hello"]⟩
      (some ⟨some 2, "00:00:01,000", "00:00:06,000", ["World"]⟩) ::
    enforce_min_duration 1 [⟨some 2, "00:00:01,000", "00:00:06,000", ["World"]⟩] = _
  rw [enforceOne_skip 1 ⟨some 1, "00:00:00,000", "00:00:05,000", ["Hello"]⟩
    (some ⟨some 2, "00:00:01,000", "00:00:06,000", ["World"]⟩) 0 5 h0' h5'
    (by rw [show targetDurationForText
        (SRTBlock.text ⟨some 1, "00:00:00,000", "00:00:05,000", ["Hello"]⟩) 1 = 1 from rfl]
        norm_num)]
  rw [show enforce_min_duration 1 [(⟨some 2, "00:00:01,000", "00:00:06,000", ["World"]⟩ : SRTBlock)] =
      [enforceOne 1 ⟨some 2, "00:00:01,000", "00:00:06,000", ["World"]⟩ none] from rfl]
  rw [enforceOne_none]

/-- Witness for C3 at a concrete already-sorted two-block input. -/
theorem C3_witness :
    List.Chain' SepOK (enforce_min_duration 1
      [⟨some 1, "00:00:00,000", "00:00:01,000", ["Hi"]⟩,
       ⟨some 2, "00:00:02,000", "00:00:03,000", ["Yo"]⟩]) := by
  have h0 : tsToSec "00:00:00,000" =
      some (((0 : ℤ) : ℚ) * 3600 + ((0 : ℤ) : ℚ) * 60 + ((0 : ℤ) : ℚ) + ((0 : ℤ) : ℚ) / 1000) :=
    tsToSec_ofParts _ ['0','0'] ['0','0'] ['0','0',',','0','0','0'] ['0','0'] ['0','0','0']
      0 0 0 0 (by decide) (by decide) (by decide) (by decide) (by decide) (by decide)
  have h1 : tsToSec "00:00:01,000" =
      some (((0 : ℤ) : ℚ) * 3600 + ((0 : ℤ) : ℚ) * 60 + ((1 : ℤ) : ℚ) + ((0 : ℤ) : ℚ) / 1000) :=
    tsToSec_ofParts _ ['0','0'] ['0','0'] ['0','1',',','0','0','0'] ['0','1'] ['0','0','0']
      0 0 1 0 (by decide) (by decide) (by decide) (by decide) (by decide) (by decide)
  have h2 : tsToSec "00:00:02,000" =
      some (((0 : ℤ) : ℚ) * 3600 + ((0 : ℤ) : ℚ) * 60 + ((2 : ℤ) : ℚ) + ((0 : ℤ) : ℚ) / 1000) :=
    tsToSec_ofParts _ ['0','0'] ['0','0'] ['0','2',',','0','0','0'] ['0','2'] ['0','0','0']
      0 0 2 0 (by decide) (by decide) (by decide) (by decide) (by decide) (by decide)
  have h0' : tsToSec "00:00:00,000" = some 0 := by rw [h0]; norm_num
  have h1' : tsToSec "00:00:01,000" = some 1 := by rw [h1]; norm_num
  have h2' : tsToSec "00:00:02,000" = some 2 := by rw [h2]; norm_num
  apply C3_enforce_preserves_nonoverlap
  · intro b hb s hs
    rcases List.mem_cons.mp hb with rfl | hb2
    · rw [show tsToSec (SRTBlock.start ⟨some 1, "00:00:00,000", "00:00:01,000", ["Hi"]⟩) =
          some 0 from h0'] at hs
      injection hs with h
      rw [← h]
    · rcases List.mem_cons.mp hb2 with rfl | hb3
      · rw [show tsToSec (SRTBlock.start ⟨some 2, "00:00:02,000", "00:00:03,000", ["Yo"]⟩) =
            some 2 from h2'] at hs
        injection hs with h
        rw [← h]
        norm_num
      · exact absurd hb3 (List.not_mem_nil b)
  · rw [List.chain'_pair]
    intro e s' he hs'
    rw [show tsToSec (SRTBlock.«end» ⟨some 1, "00:00:00,000", "00:00:01,000", ["Hi"]⟩) =
        some 1 from h1'] at he
    rw [show tsToSec (SRTBlock.start ⟨some 2, "00:00:02,000", "00:00:03,000", ["Yo"]⟩) =
        some 2 from h2'] at hs'
    injection he with he'
    injection hs' with hs''
    rw [← he', ← hs'']
    norm_num

/-! ## Arrow-split lemmas (claim C2) -/

theorem splitArrowGo_ne_nil (cs : List Char) : ∀ acc, splitArrowGo acc cs ≠ [] := by
  induction cs with
  | nil => intro acc; simp [splitArrowGo]
  | cons c rest ih =>
    intro acc
    rcases rest with _ | ⟨c2, rest2⟩
    · simp [splitArrowGo]
    · rcases rest2 with _ | ⟨c3, rest3⟩
      · simp [splitArrowGo]
      · rw [splitArrowGo]
        by_cases hcond : (c = '-' ∧ c2 = '-' ∧ c3 = '>')
        · rw [if_pos hcond]
          simp
        · rw [if_neg hcond]
          exact ih _

theorem splitArrowGo_of_arrowFree (cs : List Char) (h : arrowFree cs = true) :
    ∀ acc, splitArrowGo acc cs = [acc.reverse ++ cs] := by
  induction cs with
  | nil => intro acc; simp [splitArrowGo]
  | cons c rest ih =>
    intro acc
    rcases rest with _ | ⟨c2, rest2⟩
    · simp [splitArrowGo]
    · rcases rest2 with _ | ⟨c3, rest3⟩
      · simp [splitArrowGo]
      · rw [arrowFree] at h
        by_cases hcond : (c = '-' ∧ c2 = '-' ∧ c3 = '>')
        · rw [if_pos hcond] at h
          exact absurd h (by simp)
        · rw [if_neg hcond] at h
          rw [splitArrowGo, if_neg hcond, ih h (c :: acc)]
          simp

theorem splitArrowGo_append_arrow (s : List Char) (h : arrowFree s = true) (e : List Char) :
    ∀ acc, splitArrowGo acc (s ++ ' ' :: '-' :: '-' :: '>' :: ' ' :: e) =
      (acc.reverse ++ (s ++ [' '])) :: splitArrowGo [] (' ' :: e) := by
  induction s with
  | nil =>
    intro acc
    simp only [List.nil_append]
    rw [splitArrowGo, if_neg (fun hc => absurd hc.1 (by decide))]
    rw [splitArrowGo, if_pos ⟨rfl, rfl, rfl⟩]
    simp
  | cons c s' ih =>
    intro acc
    rcases s' with _ | ⟨c2, s''⟩
    · simp only [List.nil_append, List.cons_append]
      rw [splitArrowGo, if_neg (fun hc => absurd hc.2.1 (by decide))]
      have := ih (by rfl) (c :: acc)
      simp only [List.nil_append] at this
      rw [this]
      simp
    · rcases s'' with _ | ⟨c3, s'''⟩
      · simp only [List.cons_append, List.nil_append]
        rw [splitArrowGo, if_neg (fun hc => absurd hc.2.2 (by decide))]
        have := ih (by rfl) (c :: acc)
        simp only [List.cons_append, List.nil_append] at this
        rw [this]
        simp
      · rw [arrowFree] at h
        by_cases hcond : (c = '-' ∧ c2 = '-' ∧ c3 = '>')
        · rw [if_pos hcond] at h
          exact absurd h (by simp)
        · rw [if_neg hcond] at h
          simp only [List.cons_append]
          rw [splitArrowGo, if_neg hcond]
          have := ih h (c :: acc)
          simp only [List.cons_append] at this
          rw [this]
          simp

theorem splitArrowGo_single (cs : List Char) :
    ∀ acc p, splitArrowGo acc cs = [p] → p = acc.reverse ++ cs ∧ arrowFree cs = true := by
  induction cs with
  | nil =>
    intro acc p h
    simp [splitArrowGo] at h
    exact ⟨by simp [h.symm], rfl⟩
  | cons c rest ih =>
    intro acc p h
    rcases rest with _ | ⟨c2, rest2⟩
    · simp [splitArrowGo] at h
      simp [h.symm, arrowFree]
    · rcases rest2 with _ | ⟨c3, rest3⟩
      · simp [splitArrowGo] at h
        simp [h.symm, arrowFree]
      · rw [splitArrowGo] at h
        by_cases hcond : (c = '-' ∧ c2 = '-' ∧ c3 = '>')
        · rw [if_pos hcond] at h
          injection h with h1 h2
          exact absurd h2 (splitArrowGo_ne_nil rest3 [])
        · rw [if_neg hcond] at h
          obtain ⟨h1, h2⟩ := ih (c :: acc) p h
          constructor
          · rw [h1]; simp
          · rw [arrowFree, if_neg hcond]
            exact h2

theorem splitArrowGo_pair (cs : List Char) :
    ∀ acc p1 p2, splitArrowGo acc cs = [p1, p2] →
      ∃ u, p1 = acc.reverse ++ u ∧ arrowFree u = true ∧
        cs = u ++ '-' :: '-' :: '>' :: p2 ∧ arrowFree p2 = true := by
  induction cs with
  | nil =>
    intro acc p1 p2 h
    simp [splitArrowGo] at h
  | cons c rest ih =>
    intro acc p1 p2 h
    rcases rest with _ | ⟨c2, rest2⟩
    · simp [splitArrowGo] at h
    · rcases rest2 with _ | ⟨c3, rest3⟩
      · simp [splitArrowGo] at h
      · rw [splitArrowGo] at h
        by_cases hcond : (c = '-' ∧ c2 = '-' ∧ c3 = '>')
        · rw [if_pos hcond] at h
          injection h with h1 h2
          obtain ⟨hp2, haf⟩ := splitArrowGo_single rest3 [] p2 h2
          simp only [List.reverse_nil, List.nil_append] at hp2
          refine ⟨[], by simp [h1.symm], rfl, ?_, hp2 ▸ haf⟩
          obtain ⟨e1, e2, e3⟩ := hcond
          subst e1; subst e2; subst e3; subst hp2
          rfl
        · rw [if_neg hcond] at h
          obtain ⟨u', h1, h2, h3, h4⟩ := ih (c :: acc) p1 p2 h
          refine ⟨c :: u', by rw [h1]; simp, ?_, by rw [List.cons_append, ← h3], h4⟩
          rcases u' with _ | ⟨x, u''⟩
          · rfl
          · rcases u'' with _ | ⟨y, u'''⟩
            · rfl
            · have hx : c2 = x := by
                have := h3
                simp only [List.cons_append] at this
                exact (List.cons.injEq _ _ _ _).mp this |>.1
              have hy : c3 = y := by
                have := h3
                simp only [List.cons_append] at this
                exact ((List.cons.injEq _ _ _ _).mp ((List.cons.injEq _ _ _ _).mp this).2).1
              rw [arrowFree, if_neg (by rw [← hx, ← hy]; exact hcond)]
              exact h2

theorem arrowFree_tail (c : Char) (cs : List Char) (h : arrowFree (c :: cs) = true) :
    arrowFree cs = true := by
  rcases cs with _ | ⟨c2, t⟩
  · rfl
  · rcases t with _ | ⟨c3, t'⟩
    · rfl
    · rw [arrowFree] at h
      by_cases hcond : (c = '-' ∧ c2 = '-' ∧ c3 = '>')
      · rw [if_pos hcond] at h
        exact absurd h (by simp)
      · rw [if_neg hcond] at h
        exact h

theorem arrowFree_append_left (xs ys : List Char) (h : arrowFree (xs ++ ys) = true) :
    arrowFree ys = true := by
  induction xs with
  | nil => exact h
  | cons c xs' ih => exact ih (arrowFree_tail c _ (by simpa using h))

theorem arrowFree_append_right (xs ys : List Char) (h : arrowFree (xs ++ ys) = true) :
    arrowFree xs = true := by
  induction xs with
  | nil => rfl
  | cons c xs' ih =>
    rcases xs' with _ | ⟨c2, t⟩
    · rfl
    · rcases t with _ | ⟨c3, t'⟩
      · rfl
      · simp only [List.cons_append] at h
        rw [arrowFree] at h
        by_cases hcond : (c = '-' ∧ c2 = '-' ∧ c3 = '>')
        · rw [if_pos hcond] at h
          exact absurd h (by simp)
        · rw [if_neg hcond] at h
          rw [arrowFree, if_neg hcond]
          exact ih (by simpa using h)

theorem stripL_decomp (cs : List Char) : ∃ pre suf, cs = pre ++ stripL cs ++ suf := by
  refine ⟨cs.takeWhile isWS, ((cs.dropWhile isWS).reverse.takeWhile isWS).reverse, ?_⟩
  unfold stripL
  have h1 : cs = cs.takeWhile isWS ++ cs.dropWhile isWS :=
    (List.takeWhile_append_dropWhile _ _).symm
  have h2 : (cs.dropWhile isWS).reverse =
      (cs.dropWhile isWS).reverse.takeWhile isWS ++ (cs.dropWhile isWS).reverse.dropWhile isWS :=
    (List.takeWhile_append_dropWhile _ _).symm
  have h3 : cs.dropWhile isWS =
      ((cs.dropWhile isWS).reverse.dropWhile isWS).reverse ++
        ((cs.dropWhile isWS).reverse.takeWhile isWS).reverse := by
    have := congrArg List.reverse h2
    rw [List.reverse_reverse, List.reverse_append] at this
    exact this
  rw [List.append_assoc]
  rw [← h3]
  exact h1

theorem arrowFree_stripL (cs : List Char) (h : arrowFree cs = true) :
    arrowFree (stripL cs) = true := by
  obtain ⟨pre, suf, hd⟩ := stripL_decomp cs
  rw [hd] at h
  exact arrowFree_append_right _ _ (arrowFree_append_left pre _ (by rwa [List.append_assoc] at h))

theorem mem_stripL (cs : List Char) (c : Char) (h : c ∈ stripL cs) : c ∈ cs := by
  obtain ⟨pre, suf, hd⟩ := stripL_decomp cs
  rw [hd]
  simp [h]

/-! ## Timestamp-line shape lemmas (claim C2) -/

theorem arrowFree_cons_nondash (c : Char) (cs : List Char) (hc : c ≠ '-')
    (hcs : arrowFree cs = true) : arrowFree (c :: cs) = true := by
  rcases cs with _ | ⟨c2, t⟩
  · rfl
  · rcases t with _ | ⟨c3, t'⟩
    · rfl
    · rw [arrowFree, if_neg (fun h => hc h.1)]
      exact hcs

theorem dropWhile_ws_of_stripfix (e : List Char) (hfix : stripL e = e) :
    e.dropWhile isWS = e := by
  have h1 : (e.dropWhile isWS).Sublist e := List.dropWhile_sublist _
  have h2 : (stripL e).Sublist (e.dropWhile isWS) := by
    have h3 : (((e.dropWhile isWS).reverse.dropWhile isWS)).Sublist (e.dropWhile isWS).reverse :=
      List.dropWhile_sublist _
    have h4 := h3.reverse
    rw [List.reverse_reverse] at h4
    exact h4
  have hlen : e.length ≤ (e.dropWhile isWS).length := by
    have := h2.length_le
    rwa [hfix] at this
  exact h1.eq_of_length (le_antisymm h1.length_le hlen)

theorem stripL_append_space (s : List Char) (hfix : stripL s = s) (hne : s ≠ []) :
    stripL (s ++ [' ']) = s := by
  rcases s with _ | ⟨c, t⟩
  · exact absurd rfl hne
  · have hc : isWS c = false := stripL_head?_ws (c :: t) c (by rw [hfix]; rfl)
    unfold stripL
    rw [List.cons_append, List.dropWhile_cons, hc]
    simp only [Bool.false_eq_true, if_false]
    have hrev : (c :: (t ++ [' '])).reverse = ' ' :: (c :: t).reverse := by simp
    rw [hrev, List.dropWhile_cons, show isWS ' ' = true from rfl]
    simp only [if_true]
    have hd : (c :: t).dropWhile isWS = c :: t := dropWhile_ws_of_stripfix _ hfix
    have := hfix
    unfold stripL at this
    rw [hd] at this
    exact this

theorem stripL_cons_space (e : List Char) (hfix : stripL e = e) :
    stripL (' ' :: e) = e := by
  unfold stripL
  rw [List.dropWhile_cons, show isWS ' ' = true from rfl]
  simp only [if_true]
  rw [dropWhile_ws_of_stripfix e hfix]
  have := hfix
  unfold stripL at this
  rw [dropWhile_ws_of_stripfix e hfix] at this
  exact this

theorem stripL_tsline (s e : List Char) (hs : stripL s = s) (hsne : s ≠ [])
    (he : stripL e = e) (hene : e ≠ []) :
    stripL (s ++ ' ' :: '-' :: '-' :: '>' :: ' ' :: e) =
      s ++ ' ' :: '-' :: '-' :: '>' :: ' ' :: e := by
  apply stripL_eq_self_of
  · intro c hc
    rw [List.head?_append_of_ne_nil _ hsne] at hc
    exact stripL_head?_ws s c (by rw [hs]; exact hc)
  · intro c hc
    have hassoc : s ++ ' ' :: '-' :: '-' :: '>' :: ' ' :: e =
        (s ++ [' ', '-', '-', '>', ' ']) ++ e := by simp
    rw [hassoc, List.getLast?_append_of_ne_nil _ hene] at hc
    exact stripL_getLast?_ws e c (by rw [he]; exact hc)

theorem pyStrip_eq_self (s : String) (h : stripL s.data = s.data) : pyStrip s = s :=
  String.ext (by rw [pyStrip_data, h])

/-- `_parse_timestamp_line` applied to the canonical serialized timestamp
line recovers exactly the stored clock strings. -/
theorem parseTimestampLine_serialized (s e : String) (hs : GoodTs s) (he : GoodTs e) :
    parseTimestampLine (s ++ " --> " ++ e) = some (s, e) := by
  unfold parseTimestampLine
  have hdata : (s ++ " --> " ++ e).data =
      s.data ++ ' ' :: '-' :: '-' :: '>' :: ' ' :: e.data := by
    simp [String.data_append]
  rw [hdata]
  rw [splitArrowGo_append_arrow s.data hs.2.2.1 e.data []]
  rw [splitArrowGo_of_arrowFree (' ' :: e.data)
    (arrowFree_cons_nondash _ _ (by decide) he.2.2.1) []]
  simp only [List.reverse_nil, List.nil_append]
  rw [stripL_append_space s.data hs.1 hs.2.1, stripL_cons_space e.data he.1]
  rw [if_neg (by
    intro hor
    rcases hor with h1 | h1
    · exact hs.2.1 h1
    · exact he.2.1 h1)]

/-- Every timestamp pair produced by `_parse_timestamp_line` from a
break-free line satisfies the clock-string shape invariant. -/
theorem parseTimestampLine_good (line s e : String)
    (hnl : LineOK line) (h : parseTimestampLine line = some (s, e)) :
    GoodTs s ∧ GoodTs e := by
  unfold parseTimestampLine at h
  split at h
  · rename_i p1 p2 heq
    simp only [] at h
    split at h
    · exact absurd h (by simp)
    · rename_i hne
      injection h with h'
      injection h' with hs he
      subst hs
      subst he
      have hne1 : stripL p1 ≠ [] := fun hx => hne (Or.inl hx)
      have hne2 : stripL p2 ≠ [] := fun hx => hne (Or.inr hx)
      obtain ⟨u, hp1, hafu, hdecomp, hafp2⟩ := splitArrowGo_pair line.data [] p1 p2 heq
      simp only [List.reverse_nil, List.nil_append] at hp1
      subst hp1
      constructor
      · refine ⟨stripL_idem p1, hne1, arrowFree_stripL _ hafu, ?_⟩
        intro c hc
        have hmem : c ∈ p1 := mem_stripL p1 c hc
        exact hnl c (by rw [hdecomp]; exact List.mem_append_left _ hmem)
      · refine ⟨stripL_idem p2, hne2, arrowFree_stripL _ hafp2, ?_⟩
        intro c hc
        have hmem : c ∈ p2 := mem_stripL p2 c hc
        exact hnl c (by
          rw [hdecomp]
          exact List.mem_append_right _ (by simp [hmem]))
  · exact absurd h (by simp)

/-! ## splitlines lemmas (claim C2) -/

theorem pySplitlinesGo_other (acc : List Char) (c : Char) (cs : List Char)
    (h1 : c ≠ '\r') (h2 : c ≠ '\n') :
    pySplitlinesGo acc (c :: cs) = pySplitlinesGo (c :: acc) cs := by
  rw [pySplitlinesGo.eq_def]
  split
  · rename_i heq
    exact absurd heq (by simp)
  · rename_i heq
    rw [List.cons.injEq] at heq
    exact absurd heq.1 h1
  · rename_i heq
    rw [List.cons.injEq] at heq
    exact absurd heq.1 h2
  · rename_i heq
    rw [List.cons.injEq] at heq
    exact absurd heq.1 h1
  · rename_i c' cs' heq
    rw [List.cons.injEq] at heq
    rw [heq.1, heq.2]

theorem pySplitlinesGo_cr_other (acc : List Char) (c2 : Char) (cs : List Char)
    (h2 : c2 ≠ '\n') :
    pySplitlinesGo acc ('\r' :: c2 :: cs) =
      String.mk acc.reverse :: pySplitlinesGo [] (c2 :: cs) := by
  rw [pySplitlinesGo.eq_def]
  split
  · rename_i heq
    exact absurd heq (by simp)
  · rename_i heq
    rw [List.cons.injEq, List.cons.injEq] at heq
    exact absurd heq.2.1 h2
  · rename_i heq
    rw [List.cons.injEq] at heq
    exact absurd heq.1 (by decide)
  · rename_i hguard heq
    rw [List.cons.injEq] at heq
    rw [← heq.2]
    rw [if_neg (by simp)]
  · rename_i g1 g2 g3 heq
    rw [List.cons.injEq] at heq
    exact absurd heq.1.symm g3

theorem pySplitlinesGo_newline (acc : List Char) (cs : List Char) :
    pySplitlinesGo acc ('\n' :: cs) =
      String.mk acc.reverse :: (if cs = [] then [] else pySplitlinesGo [] cs) := rfl

theorem pySplitlinesGo_crlf (acc : List Char) (cs : List Char) :
    pySplitlinesGo acc ('\r' :: '\n' :: cs) =
      String.mk acc.reverse :: (if cs = [] then [] else pySplitlinesGo [] cs) := rfl

theorem pySplitlinesGo_line (l : List Char) :
    ∀ acc rest, (∀ c ∈ l, c ≠ '\n' ∧ c ≠ '\r') →
      pySplitlinesGo acc (l ++ '\n' :: rest) =
        String.mk (acc.reverse ++ l) :: (if rest = [] then [] else pySplitlinesGo [] rest) := by
  induction l with
  | nil =>
    intro acc rest _
    simp only [List.nil_append]
    rw [pySplitlinesGo_newline]
    simp
  | cons c l' ih =>
    intro acc rest h
    have hc := h c (List.mem_cons_self _ _)
    rw [List.cons_append, pySplitlinesGo_other acc c _ hc.2 hc.1]
    rw [ih (c :: acc) rest (fun x hx => h x (List.mem_cons_of_mem _ hx))]
    simp

theorem pySplitlines_join (out : List String) (hne : out ≠ [])
    (hnl : ∀ l ∈ out, LineOK l) :
    pySplitlines (joinLines out ++ "\n") = out := by
  induction out with
  | nil => exact absurd rfl hne
  | cons l t ih =>
    cases t with
    | nil =>
      show pySplitlines (l ++ "\n") = [l]
      unfold pySplitlines
      have hd : (l ++ "\n").data = l.data ++ '\n' :: [] := by simp [String.data_append]
      rw [hd]
      rw [if_neg (by simp)]
      rw [pySplitlinesGo_line l.data [] [] (hnl l (List.mem_cons_self _ _))]
      simp
    | cons l2 t2 =>
      show pySplitlines (l ++ "\n" ++ joinLines (l2 :: t2) ++ "\n") = l :: l2 :: t2
      unfold pySplitlines
      have hd : (l ++ "\n" ++ joinLines (l2 :: t2) ++ "\n").data =
          l.data ++ '\n' :: ((joinLines (l2 :: t2)).data ++ ['\n']) := by
        simp [String.data_append]
      rw [hd]
      rw [if_neg (by simp)]
      rw [pySplitlinesGo_line l.data [] _ (hnl l (List.mem_cons_self _ _))]
      rw [if_neg (by simp)]
      have ih2 := ih (by simp) (fun x hx => hnl x (List.mem_cons_of_mem _ hx))
      unfold pySplitlines at ih2
      have hd2 : (joinLines (l2 :: t2) ++ "\n").data =
          (joinLines (l2 :: t2)).data ++ ['\n'] := by simp [String.data_append]
      rw [hd2, if_neg (by simp)] at ih2
      rw [ih2]
      simp

theorem pySplitlinesGo_noNL (n : Nat) : ∀ cs : List Char, cs.length ≤ n →
    ∀ acc, (∀ c ∈ acc, c ≠ '\n' ∧ c ≠ '\r') →
      ∀ l ∈ pySplitlinesGo acc cs, LineOK l := by
  induction n with
  | zero =>
    intro cs hlen acc hacc l hl
    rw [List.length_eq_zero.mp (Nat.le_zero.mp hlen)] at hl
    simp only [pySplitlinesGo] at hl
    rcases List.mem_singleton.mp hl with h
    subst h
    intro c hc
    exact hacc c (by simpa using hc)
  | succ n ih =>
    intro cs hlen acc hacc l hl
    rcases cs with _ | ⟨c, cs'⟩
    · simp only [pySplitlinesGo] at hl
      rcases List.mem_singleton.mp hl with h
      subst h
      intro c hc
      exact hacc c (by simpa using hc)
    · by_cases hc1 : c = '\r'
      · subst hc1
        rcases cs' with _ | ⟨c2, cs''⟩
        · rw [show pySplitlinesGo acc ['\r'] = [String.mk acc.reverse] from rfl] at hl
          rcases List.mem_singleton.mp hl with h
          subst h
          intro c hc
          exact hacc c (by simpa using hc)
        · by_cases hc2 : c2 = '\n'
          · subst hc2
            rw [pySplitlinesGo_crlf] at hl
            rcases List.mem_cons.mp hl with h | h
            · subst h
              intro c hc
              exact hacc c (by simpa using hc)
            · split at h
              · exact absurd h (List.not_mem_nil l)
              · exact ih cs'' (by simp only [List.length_cons] at hlen; omega) [] (by simp) l h
          · rw [pySplitlinesGo_cr_other acc c2 cs'' hc2] at hl
            rcases List.mem_cons.mp hl with h | h
            · subst h
              intro c hc
              exact hacc c (by simpa using hc)
            · exact ih (c2 :: cs'') (by simpa using Nat.le_of_succ_le_succ hlen) [] (by simp) l h
      · by_cases hc2 : c = '\n'
        · subst hc2
          rw [pySplitlinesGo_newline] at hl
          rcases List.mem_cons.mp hl with h | h
          · subst h
            intro c hc
            exact hacc c (by simpa using hc)
          · split at h
            · exact absurd h (List.not_mem_nil l)
            · exact ih cs' (by simpa using Nat.le_of_succ_le_succ hlen) [] (by simp) l h
        · rw [pySplitlinesGo_other acc c cs' hc1 hc2] at hl
          exact ih cs' (by simpa using Nat.le_of_succ_le_succ hlen) (c :: acc)
            (by
              intro x hx
              rcases List.mem_cons.mp hx with h | h
              · subst h; exact ⟨hc2, hc1⟩
              · exact hacc x h) l hl

theorem pySplitlines_noNL (s : String) : ∀ l ∈ pySplitlines s, LineOK l := by
  intro l hl
  unfold pySplitlines at hl
  split at hl
  · exact absurd hl (List.not_mem_nil l)
  · exact pySplitlinesGo_noNL s.data.length s.data (le_refl _) [] (by simp) l hl

/-! ## Integer rendering shape lemmas (claim C2) -/

theorem arrowFree_of_no_gt (cs : List Char) (h : ∀ c ∈ cs, c ≠ '>') :
    arrowFree cs = true := by
  induction cs with
  | nil => rfl
  | cons c rest ih =>
    rcases rest with _ | ⟨c2, t⟩
    · rfl
    · rcases t with _ | ⟨c3, t'⟩
      · rfl
      · rw [arrowFree, if_neg (fun hc => h c3 (by simp) hc.2.2)]
        exact ih (fun x hx => h x (List.mem_cons_of_mem _ hx))

theorem intToStr_chars (i : Int) : ∀ c ∈ (intToStr i).data, c.isDigit = true ∨ c = '-' := by
  unfold intToStr
  split
  · intro c hc
    rw [String.data_append] at hc
    rcases List.mem_append.mp hc with h1 | h1
    · right
      simpa using h1
    · left
      exact natToStr_digits _ c h1
  · intro c hc
    left
    exact natToStr_digits _ c hc

theorem intToStr_ne_nil (i : Int) : (intToStr i).data ≠ [] := by
  unfold intToStr
  split
  · simp [String.data_append]
  · exact natToStrGo_ne_nil _ _ (by omega)

theorem intToStr_stripfix (i : Int) : stripL (intToStr i).data = (intToStr i).data := by
  have hnw : ∀ c ∈ (intToStr i).data, isWS c = false := by
    intro c hc
    rcases intToStr_chars i c hc with h | h
    · exact digit_not_ws c h
    · subst h
      rfl
  apply stripL_eq_self_of
  · intro c hc
    cases hd : (intToStr i).data with
    | nil => exact absurd hd (intToStr_ne_nil i)
    | cons a t =>
      rw [hd] at hc
      have : a = c := by simpa using hc
      subst this
      exact hnw a (by rw [hd]; exact List.mem_cons_self _ _)
  · intro c hc
    have hmem : c ∈ (intToStr i).data := by
      obtain ⟨hne, heq⟩ := List.mem_getLast?_eq_getLast (show c ∈ (intToStr i).data.getLast? from hc)
      rw [heq]
      exact List.getLast_mem hne
    exact hnw c hmem

theorem intToStr_arrowFree (i : Int) : arrowFree (intToStr i).data = true := by
  apply arrowFree_of_no_gt
  intro c hc
  rcases intToStr_chars i c hc with h | h
  · intro he
    subst he
    exact absurd h (by decide)
  · subst h
    decide

theorem intToStr_LineOK (i : Int) : LineOK (intToStr i) := by
  intro c hc
  rcases intToStr_chars i c hc with h | h
  · constructor
    · intro he; subst he; exact absurd h (by decide)
    · intro he; subst he; exact absurd h (by decide)
  · subst h
    exact ⟨by decide, by decide⟩

theorem parseIntPy_intToStr (i : Int) : parseIntPy (intToStr i).data = some i := by
  by_cases hneg : i < 0
  · have hdata : (intToStr i).data = '-' :: (natToStr i.natAbs).data := by
      unfold intToStr
      rw [if_pos hneg]
      simp [String.data_append]
    rw [hdata]
    rw [parseIntPy.eq_def]
    rw [show stripL ('-' :: (natToStr i.natAbs).data) = '-' :: (natToStr i.natAbs).data from by
      rw [← hdata]; exact intToStr_stripfix i]
    simp only []
    rw [if_neg (by decide), if_pos trivial]
    cases hds : (natToStr i.natAbs).data with
    | nil => exact absurd hds (natToStrGo_ne_nil _ _ (by omega))
    | cons c2 cs2 =>
      have hc2 : c2.isDigit = true := natToStr_digits _ c2 (by rw [hds]; exact List.mem_cons_self _ _)
      simp only []
      rw [if_pos hc2]
      rw [parseDigitsU_digits cs2 (digitVal c2) (fun x hx =>
        natToStr_digits _ x (by rw [hds]; exact List.mem_cons_of_mem _ hx))]
      have hfold : cs2.foldl (fun a c => a * 10 + digitVal c) (digitVal c2) = i.natAbs := by
        have h0 := natToStrGo_foldl i.natAbs
        rw [← natToStr_data, hds] at h0
        simpa using h0
      rw [hfold]
      show some (-(i.natAbs : ℤ)) = some i
      congr 1
      omega
  · have hdata : (intToStr i).data = (natToStr i.toNat).data := by
      unfold intToStr
      rw [if_neg hneg]
    rw [hdata, parseIntPy_natToStr]
    congr 1
    omega

/-! ## Serialized-lines shape lemmas (claim C2) -/

theorem takeWhile_append_stop {α : Type} (p : α → Bool) (y : α) (zs : List α) :
    ∀ xs : List α, (∀ x ∈ xs, p x = true) → p y = false →
      (xs ++ y :: zs).takeWhile p = xs ∧ (xs ++ y :: zs).dropWhile p = y :: zs := by
  intro xs
  induction xs with
  | nil =>
    intro _ hy
    constructor
    · rw [List.nil_append, List.takeWhile_cons, hy]
      simp
    · rw [List.nil_append, List.dropWhile_cons, hy]
      simp
  | cons x xs' ih =>
    intro hx hy
    have hpx : p x = true := hx x (List.mem_cons_self _ _)
    obtain ⟨ih1, ih2⟩ := ih (fun a ha => hx a (List.mem_cons_of_mem _ ha)) hy
    constructor
    · rw [List.cons_append, List.takeWhile_cons, hpx]
      simp only [if_true]
      rw [ih1]
    · rw [List.cons_append, List.dropWhile_cons, hpx]
      simp only [if_true]
      exact ih2

theorem takeWhile_all {α : Type} (p : α → Bool) :
    ∀ xs : List α, (∀ x ∈ xs, p x = true) →
      xs.takeWhile p = xs ∧ xs.dropWhile p = [] := by
  intro xs
  induction xs with
  | nil => intro _; exact ⟨rfl, rfl⟩
  | cons x xs' ih =>
    intro hx
    have hpx : p x = true := hx x (List.mem_cons_self _ _)
    obtain ⟨ih1, ih2⟩ := ih (fun a ha => hx a (List.mem_cons_of_mem _ ha))
    constructor
    · rw [List.takeWhile_cons, hpx]
      simp only [if_true]
      rw [ih1]
    · rw [List.dropWhile_cons, hpx]
      simp only [if_true]
      exact ih2

theorem parseTimestampLine_intToStr (i : Int) :
    parseTimestampLine (intToStr i) = none := by
  unfold parseTimestampLine
  rw [splitArrowGo_of_arrowFree _ (intToStr_arrowFree i) []]

theorem scanToTs_ts_head (l : String) (ls : List String) (se : String × String)
    (hnb : ¬ stripL l.data = []) (hts : parseTimestampLine (pyStrip l) = some se) :
    scanToTs (l :: ls) = ([], some se, ls) := by
  rw [scanToTs, if_neg hnb, hts]

theorem outLines_single (b : SRTBlock) : outLines [b] = blockCoreLines b := by
  simp [outLines]

theorem outLines_cons2 (b b2 : SRTBlock) (t : List SRTBlock) :
    outLines (b :: b2 :: t) = blockCoreLines b ++ "" :: outLines (b2 :: t) := by
  simp [outLines]

theorem blockCoreLines_some (b : SRTBlock) (i : Int) (hidx : b.index = some i) :
    blockCoreLines b = intToStr i :: (b.start ++ " --> " ++ b.«end») :: b.lines := by
  unfold blockCoreLines
  rw [hidx]
  rfl

theorem blockCoreLines_none (b : SRTBlock) (hidx : b.index = none) :
    blockCoreLines b = (b.start ++ " --> " ++ b.«end») :: b.lines := by
  unfold blockCoreLines
  rw [hidx]
  rfl

theorem tsline_LineOK (s e : String) (hs : LineOK s) (he : LineOK e) :
    LineOK (s ++ " --> " ++ e) := by
  intro c hc
  have hd : (s ++ " --> " ++ e).data = s.data ++ ([' ', '-', '-', '>', ' '] ++ e.data) := by
    simp [String.data_append]
  rw [hd] at hc
  rcases List.mem_append.mp hc with h1 | h1
  · exact hs c h1
  · rcases List.mem_append.mp h1 with h2 | h2
    · constructor
      · intro he
        subst he
        revert h2
        decide
      · intro he
        subst he
        revert h2
        decide
    · exact he c h2

theorem blockCoreLines_LineOK (b : SRTBlock) (hb : GoodBlock b) :
    ∀ l ∈ blockCoreLines b, LineOK l := by
  intro l hl
  unfold blockCoreLines at hl
  rcases List.mem_append.mp hl with h1 | h1
  · rcases hidx : b.index with _ | i
    · rw [hidx] at h1
      exact absurd h1 (List.not_mem_nil l)
    · rw [hidx] at h1
      have : l = intToStr i := by simpa using h1
      subst this
      exact intToStr_LineOK i
  · rcases List.mem_cons.mp h1 with h2 | h2
    · subst h2
      exact tsline_LineOK _ _ hb.1.2.2.2 hb.2.1.2.2.2
    · exact hb.2.2 l h2

theorem outLines_LineOK (bs : List SRTBlock) (h : ∀ b ∈ bs, GoodBlock b) :
    ∀ l ∈ outLines bs, LineOK l := by
  cases bs with
  | nil => intro l hl; exact absurd hl (List.not_mem_nil l)
  | cons b t =>
    intro l hl
    unfold outLines at hl
    rcases List.mem_append.mp hl with h1 | h1
    · exact blockCoreLines_LineOK b (h b (List.mem_cons_self _ _)) l h1
    · obtain ⟨piece, hpiece, hlp⟩ := List.mem_flatten.mp h1
      obtain ⟨b', hb', hmap⟩ := List.mem_map.mp hpiece
      rw [← hmap] at hlp
      rcases List.mem_cons.mp hlp with h2 | h2
      · subst h2
        intro c hc
        exact absurd hc (List.not_mem_nil c)
      · exact blockCoreLines_LineOK b' (h b' (List.mem_cons_of_mem _ hb')) l h2

theorem tsline_data (s e : String) : (s ++ " --> " ++ e).data =
    s.data ++ ' ' :: '-' :: '-' :: '>' :: ' ' :: e.data := by
  simp [String.data_append]

theorem tsline_stripfix (s e : String) (hs : GoodTs s) (he : GoodTs e) :
    stripL (s ++ " --> " ++ e).data = (s ++ " --> " ++ e).data := by
  rw [tsline_data]
  exact stripL_tsline s.data e.data hs.1 hs.2.1 he.1 he.2.1

theorem tsline_nonblank (s e : String) (hs : GoodTs s) (he : GoodTs e) :
    ¬ stripL (s ++ " --> " ++ e).data = [] := by
  rw [tsline_stripfix s e hs he, tsline_data]
  simp

theorem parseOne_serialized_none (b : SRTBlock) (tail : List String)
    (hb : GoodBlock b) (hpay : ∀ l ∈ b.lines, ¬ stripL l.data = [])
    (hidx : b.index = none)
    (htail : tail = [] ∨ ∃ t', tail = "" :: t') :
    parseOne (b.start ++ " --> " ++ b.«end») (b.lines ++ tail) = (some b, tail.tail) := by
  unfold parseOne
  rw [pyStrip_eq_self _ (tsline_stripfix b.start b.«end» hb.1 hb.2.1)]
  simp only []
  rw [parseTimestampLine_serialized b.start b.«end» hb.1 hb.2.1]
  simp only []
  have hall : ∀ l ∈ b.lines, (fun l => decide (¬ stripL l.data = [])) l = true :=
    fun l hl => decide_eq_true (hpay l hl)
  rcases htail with rfl | ⟨t', rfl⟩
  · rw [List.append_nil]
    obtain ⟨h1, h2⟩ := takeWhile_all _ b.lines hall
    rw [h1, h2]
    rw [show dropOneBlank [] = [] from rfl]
    cases b with
    | mk idx st en lns =>
      simp only [] at hidx
      subst hidx
      rfl
  · obtain ⟨h1, h2⟩ := takeWhile_append_stop _ "" t' b.lines hall (by decide)
    rw [h1, h2]
    rw [show dropOneBlank ("" :: t') = t' from by
      rw [dropOneBlank, if_pos (show stripL ("" : String).data = [] from rfl)]]
    cases b with
    | mk idx st en lns =>
      simp only [] at hidx
      subst hidx
      rfl

theorem parseOne_serialized_some (b : SRTBlock) (i : Int) (tail : List String)
    (hb : GoodBlock b) (hpay : ∀ l ∈ b.lines, ¬ stripL l.data = [])
    (hidx : b.index = some i)
    (htail : tail = [] ∨ ∃ t', tail = "" :: t') :
    parseOne (intToStr i) ((b.start ++ " --> " ++ b.«end») :: (b.lines ++ tail)) =
      (some b, tail.tail) := by
  unfold parseOne
  rw [pyStrip_eq_self _ (intToStr_stripfix i)]
  simp only []
  rw [parseTimestampLine_intToStr i]
  simp only []
  rw [parseIntPy_intToStr i]
  simp only []
  rw [scanToTs_ts_head (b.start ++ " --> " ++ b.«end») (b.lines ++ tail) (b.start, b.«end»)
    (tsline_nonblank _ _ hb.1 hb.2.1)
    (by
      rw [pyStrip_eq_self _ (tsline_stripfix b.start b.«end» hb.1 hb.2.1)]
      exact parseTimestampLine_serialized b.start b.«end» hb.1 hb.2.1)]
  simp only []
  have hall : ∀ l ∈ b.lines, (fun l => decide (¬ stripL l.data = [])) l = true :=
    fun l hl => decide_eq_true (hpay l hl)
  rcases htail with rfl | ⟨t', rfl⟩
  · rw [List.append_nil b.lines]
    obtain ⟨h1, h2⟩ := takeWhile_all _ b.lines hall
    rw [h1, h2]
    rw [show dropOneBlank [] = [] from rfl]
    cases b with
    | mk idx st en lns =>
      simp only [] at hidx
      subst hidx
      rfl
  · obtain ⟨h1, h2⟩ := takeWhile_append_stop _ "" t' b.lines hall (by decide)
    rw [h1, h2]
    rw [show dropOneBlank ("" :: t') = t' from by
      rw [dropOneBlank, if_pos (show stripL ("" : String).data = [] from rfl)]]
    cases b with
    | mk idx st en lns =>
      simp only [] at hidx
      subst hidx
      rfl

theorem parseLoop_outLines (bs : List SRTBlock) :
    ∀ fuel, (outLines bs).length ≤ fuel →
      (∀ b ∈ bs, GoodBlock b) → (∀ b ∈ bs, ∀ l ∈ b.lines, ¬ stripL l.data = []) →
      parseLoop fuel (outLines bs) = bs := by
  induction bs with
  | nil =>
    intro fuel _ _ _
    rw [show outLines [] = [] from rfl]
    exact parseLoop_nil fuel
  | cons b bs' ih =>
    intro fuel hfuel hgood hpay
    have hb : GoodBlock b := hgood b (List.mem_cons_self _ _)
    have hbpay : ∀ l ∈ b.lines, ¬ stripL l.data = [] := hpay b (List.mem_cons_self _ _)
    have hnbts : ¬ (decide (stripL (b.start ++ " --> " ++ b.«end»).data = []) = true) := by
      rw [decide_eq_true_eq]
      exact tsline_nonblank _ _ hb.1 hb.2.1
    cases bs' with
    | nil =>
      rw [outLines_single] at hfuel ⊢
      rcases hidx : b.index with _ | i
      · rw [blockCoreLines_none b hidx] at hfuel ⊢
        cases fuel with
        | zero => simp at hfuel
        | succ f =>
          rw [parseLoop_succ_cons f _ (b.start ++ " --> " ++ b.«end») (b.lines ++ []) (by
            rw [List.dropWhile_cons, if_neg hnbts]
            simp)]
          rw [parseOne_serialized_none b [] hb hbpay hidx (Or.inl rfl)]
          simp only []
          rw [show ([] : List String).tail = [] from rfl, parseLoop_nil]
      · rw [blockCoreLines_some b i hidx] at hfuel ⊢
        have hnbi : ¬ (decide (stripL (intToStr i).data = []) = true) := by
          rw [decide_eq_true_eq, intToStr_stripfix]
          exact intToStr_ne_nil i
        cases fuel with
        | zero => simp at hfuel
        | succ f =>
          rw [parseLoop_succ_cons f _ (intToStr i)
            ((b.start ++ " --> " ++ b.«end») :: (b.lines ++ [])) (by
              rw [List.dropWhile_cons, if_neg hnbi]
              simp)]
          rw [parseOne_serialized_some b i [] hb hbpay hidx (Or.inl rfl)]
          simp only []
          rw [show ([] : List String).tail = [] from rfl, parseLoop_nil]
    | cons b2 t2 =>
      rw [outLines_cons2] at hfuel ⊢
      have hsub : ∀ fuel2, (outLines (b2 :: t2)).length ≤ fuel2 →
          parseLoop fuel2 (outLines (b2 :: t2)) = b2 :: t2 := by
        intro fuel2 hf2
        exact ih fuel2 hf2 (fun x hx => hgood x (List.mem_cons_of_mem _ hx))
          (fun x hx => hpay x (List.mem_cons_of_mem _ hx))
      rcases hidx : b.index with _ | i
      · rw [blockCoreLines_none b hidx] at hfuel ⊢
        cases fuel with
        | zero => simp at hfuel
        | succ f =>
          rw [show ((b.start ++ " --> " ++ b.«end») :: b.lines) ++ "" :: outLines (b2 :: t2) =
            (b.start ++ " --> " ++ b.«end») :: (b.lines ++ "" :: outLines (b2 :: t2)) from by
              simp]
          rw [parseLoop_succ_cons f _ (b.start ++ " --> " ++ b.«end»)
            (b.lines ++ "" :: outLines (b2 :: t2)) (by
              rw [List.dropWhile_cons, if_neg hnbts])]
          rw [parseOne_serialized_none b ("" :: outLines (b2 :: t2)) hb hbpay hidx
            (Or.inr ⟨_, rfl⟩)]
          simp only []
          rw [show ("" :: outLines (b2 :: t2)).tail = outLines (b2 :: t2) from rfl]
          rw [hsub f (by
            simp only [List.length_cons, List.length_append] at hfuel ⊢
            omega)]
      · rw [blockCoreLines_some b i hidx] at hfuel ⊢
        have hnbi : ¬ (decide (stripL (intToStr i).data = []) = true) := by
          rw [decide_eq_true_eq, intToStr_stripfix]
          exact intToStr_ne_nil i
        cases fuel with
        | zero => simp at hfuel
        | succ f =>
          rw [show (intToStr i :: (b.start ++ " --> " ++ b.«end») :: b.lines) ++
              "" :: outLines (b2 :: t2) =
            intToStr i :: ((b.start ++ " --> " ++ b.«end») ::
              (b.lines ++ "" :: outLines (b2 :: t2))) from by simp]
          rw [parseLoop_succ_cons f _ (intToStr i)
            ((b.start ++ " --> " ++ b.«end») :: (b.lines ++ "" :: outLines (b2 :: t2))) (by
              rw [List.dropWhile_cons, if_neg hnbi])]
          rw [parseOne_serialized_some b i ("" :: outLines (b2 :: t2)) hb hbpay hidx
            (Or.inr ⟨_, rfl⟩)]
          simp only []
          rw [show ("" :: outLines (b2 :: t2)).tail = outLines (b2 :: t2) from rfl]
          rw [hsub f (by
            simp only [List.length_cons, List.length_append] at hfuel ⊢
            omega)]

/-! ## Parser output invariants (claim C2) -/

theorem pyStrip_LineOK (l : String) (h : LineOK l) : LineOK (pyStrip l) := by
  intro c hc
  rw [pyStrip_data] at hc
  exact h c (mem_stripL _ _ hc)

theorem scanToTs_props (ls : List String) :
    (∀ p ∈ (scanToTs ls).1, p = "" ∨ p ∈ ls) ∧
    (∀ l ∈ (scanToTs ls).2.2, l ∈ ls) ∧
    (∀ se, (scanToTs ls).2.1 = some se →
      ∃ l, l ∈ ls ∧ parseTimestampLine (pyStrip l) = some se) := by
  induction ls with
  | nil =>
    refine ⟨?_, ?_, ?_⟩
    · intro p hp; exact absurd hp (List.not_mem_nil p)
    · intro l hl; exact absurd hl (List.not_mem_nil l)
    · intro se hse; exact absurd hse (by simp [scanToTs])
  | cons l ls' ih =>
    obtain ⟨ih1, ih2, ih3⟩ := ih
    rw [scanToTs]
    by_cases hb : stripL l.data = []
    · rw [if_pos hb]
      simp only []
      refine ⟨?_, ?_, ?_⟩
      · intro p hp
        rcases List.mem_cons.mp hp with h1 | h1
        · exact Or.inl h1
        · rcases ih1 p h1 with h2 | h2
          · exact Or.inl h2
          · exact Or.inr (List.mem_cons_of_mem _ h2)
      · intro x hx
        exact List.mem_cons_of_mem _ (ih2 x hx)
      · intro se hse
        obtain ⟨x, hx1, hx2⟩ := ih3 se hse
        exact ⟨x, List.mem_cons_of_mem _ hx1, hx2⟩
    · rw [if_neg hb]
      cases hp : parseTimestampLine (pyStrip l) with
      | some se =>
        simp only []
        refine ⟨?_, ?_, ?_⟩
        · intro p hpp; exact absurd hpp (List.not_mem_nil p)
        · intro x hx; exact List.mem_cons_of_mem _ hx
        · intro se' hse'
          injection hse' with h'
          exact ⟨l, List.mem_cons_self _ _, h' ▸ hp⟩
      | none =>
        simp only []
        refine ⟨?_, ?_, ?_⟩
        · intro p hpp
          rcases List.mem_cons.mp hpp with h1 | h1
          · exact Or.inr (h1 ▸ List.mem_cons_self _ _)
          · rcases ih1 p h1 with h2 | h2
            · exact Or.inl h2
            · exact Or.inr (List.mem_cons_of_mem _ h2)
        · intro x hx
          exact List.mem_cons_of_mem _ (ih2 x hx)
        · intro se hse
          obtain ⟨x, hx1, hx2⟩ := ih3 se hse
          exact ⟨x, List.mem_cons_of_mem _ hx1, hx2⟩

theorem dropOneBlank_subset (ls : List String) (l : String) (h : l ∈ dropOneBlank ls) :
    l ∈ ls := by
  cases ls with
  | nil => exact absurd h (List.not_mem_nil l)
  | cons x t =>
    rw [dropOneBlank] at h
    split at h
    · exact List.mem_cons_of_mem _ h
    · exact h

theorem parseOne_rest_subset (first : String) (ls : List String) :
    ∀ l ∈ (parseOne first ls).2, l ∈ ls := by
  intro l hl
  unfold parseOne at hl
  simp only [] at hl
  cases hp : parseTimestampLine (pyStrip first) with
  | some se =>
    rw [hp] at hl
    simp only [] at hl
    have h1 := dropOneBlank_subset _ _ hl
    exact (List.dropWhile_sublist _).mem h1
  | none =>
    rw [hp] at hl
    simp only [] at hl
    cases hq : (scanToTs ls).2.1 with
    | none =>
      rw [hq] at hl
      simp only [] at hl
      exact (scanToTs_props ls).2.1 l hl
    | some se =>
      rw [hq] at hl
      simp only [] at hl
      have h1 := dropOneBlank_subset _ _ hl
      exact (scanToTs_props ls).2.1 l ((List.dropWhile_sublist _).mem h1)

theorem parseOne_some_good (first : String) (ls : List String) (b : SRTBlock)
    (rest2 : List String)
    (hfirst : LineOK first) (hls : ∀ l ∈ ls, LineOK l)
    (h : parseOne first ls = (some b, rest2)) :
    GoodBlock b := by
  unfold parseOne at h
  simp only [] at h
  cases hp : parseTimestampLine (pyStrip first) with
  | some se =>
    rw [hp] at h
    simp only [] at h
    rw [Prod.mk.injEq] at h
    injection h.1 with hb
    obtain ⟨s1, s2⟩ := se
    obtain ⟨hg1, hg2⟩ := parseTimestampLine_good (pyStrip first) s1 s2
      (pyStrip_LineOK first hfirst) hp
    rw [← hb]
    exact ⟨hg1, hg2, by
      intro x hx
      exact hls x ((List.takeWhile_prefix _).sublist.mem hx)⟩
  | none =>
    rw [hp] at h
    simp only [] at h
    cases hq : (scanToTs ls).2.1 with
    | none =>
      rw [hq] at h
      simp only [] at h
      rw [Prod.mk.injEq] at h
      exact absurd h.1 (by simp)
    | some se =>
      rw [hq] at h
      simp only [] at h
      rw [Prod.mk.injEq] at h
      injection h.1 with hb
      obtain ⟨s1, s2⟩ := se
      obtain ⟨x, hx1, hx2⟩ := (scanToTs_props ls).2.2 (s1, s2) hq
      obtain ⟨hg1, hg2⟩ := parseTimestampLine_good (pyStrip x) s1 s2
        (pyStrip_LineOK x (hls x hx1)) hx2
      rw [← hb]
      refine ⟨hg1, hg2, ?_⟩
      intro y hy
      rcases List.mem_append.mp hy with h1 | h1
      · rcases List.mem_append.mp h1 with h2 | h2
        · -- y ∈ idxPay.2: [] or [pyStrip first]
          rcases hi : parseIntPy (pyStrip first).data with _ | idx
          · rw [hi] at h2
            simp only [] at h2
            have : y = pyStrip first := by simpa using h2
            subst this
            exact pyStrip_LineOK first hfirst
          · rw [hi] at h2
            simp only [] at h2
            exact absurd h2 (List.not_mem_nil y)
        · -- y ∈ (scanToTs ls).1
          rcases (scanToTs_props ls).1 y h2 with h3 | h3
          · subst h3
            intro c hc
            exact absurd hc (List.not_mem_nil c)
          · exact hls y h3
      · -- y ∈ takeWhile of (scanToTs ls).2.2
        exact hls y ((scanToTs_props ls).2.1 y ((List.takeWhile_prefix _).sublist.mem h1))

theorem parseLoop_good (fuel : Nat) : ∀ ls, (∀ l ∈ ls, LineOK l) →
    ∀ b ∈ parseLoop fuel ls, GoodBlock b := by
  induction fuel with
  | zero =>
    intro ls _ b hb
    exact absurd hb (by simp [parseLoop])
  | succ f ih =>
    intro ls hls b hb
    cases hd : ls.dropWhile (fun l => stripL l.data = []) with
    | nil =>
      rw [parseLoop_succ_nil f ls hd] at hb
      exact absurd hb (List.not_mem_nil b)
    | cons first rest =>
      have hmem : ∀ l ∈ first :: rest, l ∈ ls := by
        intro l hl
        have hsub : (first :: rest).Sublist ls := hd ▸ List.dropWhile_sublist _
        exact hsub.mem hl
      rw [parseLoop_succ_cons f ls first rest hd] at hb
      cases hp : parseOne first rest with
      | mk ob rest2 =>
        rw [hp] at hb
        have hrest2 : ∀ l ∈ rest2, LineOK l := by
          intro l hl
          have : l ∈ rest := parseOne_rest_subset first rest l (by rw [hp]; exact hl)
          exact hls l (hmem l (List.mem_cons_of_mem _ this))
        cases ob with
        | none =>
          simp only [] at hb
          exact ih rest2 hrest2 b hb
        | some b' =>
          simp only [] at hb
          rcases List.mem_cons.mp hb with h1 | h1
          · subst h1
            exact parseOne_some_good first rest b rest2
              (hls first (hmem first (List.mem_cons_self _ _)))
              (fun x hx => hls x (hmem x (List.mem_cons_of_mem _ hx))) hp
          · exact ih rest2 hrest2 b h1

theorem parse_srt_blocks_good (T : String) : ∀ b ∈ parse_srt_blocks T, GoodBlock b := by
  unfold parse_srt_blocks
  exact parseLoop_good _ _ (fun l hl => pySplitlines_noNL T l hl)

theorem roundtrip_of_good (bs : List SRTBlock)
    (hgood : ∀ b ∈ bs, GoodBlock b)
    (hpay : ∀ b ∈ bs, ∀ l ∈ b.lines, ¬ stripL l.data = []) :
    parse_srt_blocks (blocks_to_text bs) = bs := by
  cases bs with
  | nil => rfl
  | cons b t =>
    unfold parse_srt_blocks
    have hone : outLines (b :: t) ≠ [] := by
      rw [show outLines (b :: t) =
        blockCoreLines b ++ (t.map (fun b' => "" :: blockCoreLines b')).flatten from rfl]
      unfold blockCoreLines
      simp
    have hjoin : pySplitlines (blocks_to_text (b :: t)) = outLines (b :: t) := by
      unfold blocks_to_text
      simp only []
      rw [if_neg hone]
      exact pySplitlines_join _ hone (outLines_LineOK _ hgood)
    rw [hjoin]
    exact parseLoop_outLines (b :: t) _ (le_refl _) hgood hpay

/-- C2: serializing the parse of a subtitle text and parsing the result
yields the identical block sequence (same indices, clock strings, and
payload lines), for every text whose parsed blocks have no blank payload
lines (the canonical well-formed shape: payload lines of a block are
non-blank, since a blank line ends the block). -/
theorem C2_parse_serialize_roundtrip (T : String)
    (hpay : ∀ b ∈ parse_srt_blocks T, ∀ l ∈ b.lines, ¬ stripL l.data = []) :
    parse_srt_blocks (blocks_to_text (parse_srt_blocks T)) = parse_srt_blocks T :=
  roundtrip_of_good (parse_srt_blocks T) (parse_srt_blocks_good T) hpay

/-- Witness for C2 at a concrete two-block document. -/
theorem C2_witness :
    parse_srt_blocks (blocks_to_text (parse_srt_blocks
      "1\n00:00:01,000 --> 00:00:02,000\nHi\n\n00:00:03,000 --> 00:00:04,000\nYo\n")) =
    parse_srt_blocks
      "1\n00:00:01,000 --> 00:00:02,000\nHi\n\n00:00:03,000 --> 00:00:04,000\nYo\n" :=
  C2_parse_serialize_roundtrip _ (by decide)
